import Mathlib

/-! Ael-Racing: recursive vs iterative capital-letter counting benchmark.

A shallow embedding of `tubes aka/faktorial.go` (and its near duplicate
`tubes aka/tempCodeRunnerFile.go`, which differs only in header texts and
in the plotting library's constructor).

* A Go `string` is its byte sequence, a `List Nat` (every byte is `< 256`;
  none of the definitions needs the bound).
* A Go `int` count or index is a `Nat`: the only indices used start at `0`
  and grow by one up to `len(s)`, which is below `2^63`.
* A `float64` is held as the rational it denotes; the conversion of an
  integer and the division round to the nearest `float64`, ties to even
  (`roundBinary64`), and `%.4f` rounds that exact value to four decimals.
-/

namespace AelRacing

/-! ## Strings and the two counting strategies -/

/-- A Go string, as the sequence of its bytes. -/
abbrev GoString := List Nat

/-- The test `x >= 'A' && x <= 'Z'` that both strategies apply (to a byte in
the recursive one, to a rune in the iterative one). -/
def isCapital (x : Nat) : Bool := decide (65 ≤ x) && decide (x ≤ 90)

/-- Go runtime constant `runeError`, U+FFFD. -/
def runeError : Nat := 0xFFFD
/-- Go runtime constant `runeSelf`: bytes below it are runes by themselves. -/
def runeSelf : Nat := 0x80
/-- Go runtime constant `maxRune`. -/
def maxRune : Nat := 0x10FFFF
/-- Go runtime constant `surrogateMin`. -/
def surrogateMin : Nat := 0xD800
/-- Go runtime constant `surrogateMax`. -/
def surrogateMax : Nat := 0xDFFF
/-- Lead byte marker of a two byte sequence. -/
def t2 : Nat := 0xC0
/-- Lead byte marker of a three byte sequence. -/
def t3 : Nat := 0xE0
/-- Lead byte marker of a four byte sequence. -/
def t4 : Nat := 0xF0
/-- First byte value that starts no sequence. -/
def t5 : Nat := 0xF8
/-- Payload mask of a continuation byte. -/
def maskx : Nat := 0x3F
/-- Payload mask of a two byte lead. -/
def mask2 : Nat := 0x1F
/-- Payload mask of a three byte lead. -/
def mask3 : Nat := 0x0F
/-- Payload mask of a four byte lead. -/
def mask4 : Nat := 0x07
/-- Largest rune of a one byte encoding. -/
def rune1Max : Nat := 2 ^ 7 - 1
/-- Largest rune of a two byte encoding. -/
def rune2Max : Nat := 2 ^ 11 - 1
/-- Largest rune of a three byte encoding. -/
def rune3Max : Nat := 2 ^ 16 - 1
/-- Lowest continuation byte. -/
def locb : Nat := 0x80
/-- Highest continuation byte. -/
def hicb : Nat := 0xBF

/-- Whether `b` is a continuation byte, `locb <= b && b <= hicb`. -/
def isCont (b : Nat) : Bool := decide (locb ≤ b) && decide (b ≤ hicb)

/-- The Go runtime's `decoderune(s, k)`, which a `for _, r := range s` loop
calls at a byte `>= runeSelf`: the rune that starts at byte `k` and the
position after it; an ill-formed sequence gives `runeError` and `k + 1`. -/
def decoderune (s : GoString) (k : Nat) : Nat × Nat :=
  if s.length ≤ k then (runeError, k + 1)
  else
    let n := s.length - k
    let s0 := s.getD k 0
    let s1 := s.getD (k + 1) 0
    let s2 := s.getD (k + 2) 0
    let s3 := s.getD (k + 3) 0
    if t2 ≤ s0 ∧ s0 < t3 then
      if 1 < n ∧ isCont s1 then
        let r := ((s0 &&& mask2) <<< 6) ||| (s1 &&& maskx)
        if rune1Max < r then (r, k + 2) else (runeError, k + 1)
      else (runeError, k + 1)
    else if t3 ≤ s0 ∧ s0 < t4 then
      if 2 < n ∧ isCont s1 ∧ isCont s2 then
        let r := ((s0 &&& mask3) <<< 12) ||| ((s1 &&& maskx) <<< 6) ||| (s2 &&& maskx)
        if rune2Max < r ∧ ¬ (surrogateMin ≤ r ∧ r ≤ surrogateMax) then (r, k + 3)
        else (runeError, k + 1)
      else (runeError, k + 1)
    else if t4 ≤ s0 ∧ s0 < t5 then
      if 3 < n ∧ isCont s1 ∧ isCont s2 ∧ isCont s3 then
        let r := ((s0 &&& mask4) <<< 18) ||| ((s1 &&& maskx) <<< 12)
          ||| ((s2 &&& maskx) <<< 6) ||| (s3 &&& maskx)
        if rune3Max < r ∧ r ≤ maxRune then (r, k + 4) else (runeError, k + 1)
      else (runeError, k + 1)
    else (runeError, k + 1)

/-- One iteration's decoding in `for _, r := range s`: the rune at byte
`hv1` and the index of the next iteration. -/
def rangeNext (s : GoString) (hv1 : Nat) : Nat × Nat :=
  if s.getD hv1 0 < runeSelf then (s.getD hv1 0, hv1 + 1) else decoderune s hv1

/-- The loop of `countCapitalIterative`, from byte index `hv1` with `count`
capitals seen so far. Every iteration moves `hv1` forward, so `fuel = len(s)`
iterations are never used up. -/
def rangeLoop (s : GoString) : Nat → Nat → Nat → Nat
  | 0, _, count => count
  | fuel + 1, hv1, count =>
    if hv1 < s.length then
      let rp := rangeNext s hv1
      rangeLoop s fuel rp.2 (if isCapital rp.1 then count + 1 else count)
    else count

/-- Source `countCapitalIterative(s)`: counts the runes of `s` in `'A'..'Z'`. -/
def countCapitalIterative (s : GoString) : Nat := rangeLoop s s.length 0 0

/-- Source `countCapitalRecursive(s, idx)`: counts the bytes of `s` from `idx`
on that are in `'A'..'Z'`, one call frame per byte. -/
def countCapitalRecursive (s : GoString) (idx : Nat) : Nat :=
  if s.length ≤ idx then 0
  else (if isCapital (s.getD idx 0) then 1 else 0) + countCapitalRecursive s (idx + 1)
termination_by s.length - idx

/-- The same function run on a goroutine stack with room for `frames` nested
frames of `countCapitalRecursive`: `none` when a call finds no room left,
which the Go runtime reports as `fatal error: stack overflow`. -/
def countCapitalRecursiveOnStack : Nat → GoString → Nat → Option Nat
  | 0, _, _ => none
  | frames + 1, s, idx =>
    if s.length ≤ idx then some 0
    else
      match countCapitalRecursiveOnStack frames s (idx + 1) with
      | none => none
      | some rest => some ((if isCapital (s.getD idx 0) then 1 else 0) + rest)

/-- The uppercase letters A to Z, written out, as bytes. -/
def upperLetters : List Nat := "ABCDEFGHIJKLMNOPQRSTUVWXYZ".toList.map Char.toNat

/-- The number of capitals as the specification words it: the count of
positions of `s` that hold one of the letters A to Z. -/
def capitalPositions (s : GoString) : Nat := s.countP (fun b => decide (b ∈ upperLetters))

/-! ## The clock and `measureTime` -/

/-- Largest `time.Duration`, in nanoseconds. -/
def maxDuration : Int := 2 ^ 63 - 1
/-- Smallest `time.Duration`, in nanoseconds. -/
def minDuration : Int := -(2 ^ 63)

/-- Conversion of an integer to `int64` (two's complement wrap-around). -/
def wrap64 (x : Int) : Int := (x + 2 ^ 63) % 2 ^ 64 - 2 ^ 63

/-- Go `time.subMono(t, u)`: the saturating difference of two monotonic clock
readings, which `time.Since(start)` returns for a `start` taken by
`time.Now()`. -/
def subMono (t u : Int) : Int :=
  let d := wrap64 (t - u)
  if d < 0 ∧ t > u then maxDuration
  else if d > 0 ∧ t < u then minDuration
  else d

/-- Rounding of a non-negative rational to the nearest integer, ties to even. -/
def roundHalfEven (q : ℚ) : Nat :=
  let fl := ⌊q⌋₊
  let r := q - (fl : ℚ)
  if r < 1 / 2 then fl
  else if 1 / 2 < r then fl + 1
  else if fl % 2 = 0 then fl else fl + 1

/-- The `float64` nearest to the rational `q`, ties to even: 53 significant
bits, smallest exponent `-1022`. A `float64` is held as the rational it
denotes; the values met here stay far below `2^1024`, where `float64` has
infinities instead. -/
def roundBinary64 (q : ℚ) : ℚ :=
  if q = 0 then 0
  else
    let e := max (Int.log 2 |q|) (-1022)
    let ulp : ℚ := 2 ^ (e - 52)
    (if q < 0 then -1 else 1) * (((roundHalfEven (|q| / ulp) : Nat) : ℚ) * ulp)

/-- The conversion `float64(n)` of an integer. -/
def float64OfInt (n : Int) : ℚ := roundBinary64 (n : ℚ)

/-- The `float64` division `x / y`. -/
def float64Div (x y : ℚ) : ℚ := roundBinary64 (x / y)

/-- The expression `float64(time.Since(start).Nanoseconds()) / 1e6`, evaluated
when the monotonic clock reads `now`. -/
def elapsedMs (start now : Int) : ℚ :=
  float64Div (float64OfInt (subMono now start)) 1000000

/-- The elapsed time in milliseconds as a number, before any rounding. -/
def exactMs (start now : Int) : ℚ := ((now - start : Int) : ℚ) / 1000000

/-- How a call `f()` of a unit of work ends.
* `completed`: it returns.
* `panicked`: it panics; `recover()` in a deferred function of the same
  goroutine then yields the panic value, which is not nil (since Go 1.21 also
  after `panic(nil)`).
* `fatal`: the Go runtime throws a fatal error in it (`stack overflow` when
  the goroutine stack would outgrow its limit): no deferred function runs and
  the process is killed.
* `hangs`: it never returns. -/
inductive UnitResult
  | completed
  | panicked
  | fatal
  | hangs
  deriving DecidableEq, Repr

/-- One invocation of `measureTime`: how `f()` ends, the clock reading taken
by `start := time.Now()`, and the reading `fin` seen by `time.Since(start)`
if `f` returns. -/
structure Call where
  f : UnitResult
  start : Int
  fin : Int
  deriving DecidableEq, Repr

/-- What the caller of `measureTime` observes. -/
inductive Outcome
  | returned (v : ℚ)
  | panics
  | crashed
  | blocked
  deriving DecidableEq, Repr

/-- Program points of the goroutine spawned by `measureTime(f, true)`. -/
inductive WorkerPC
  | callF
  | sendElapsed (v : ℚ)
  | deferred (panicking : Bool)
  | sendFail
  | exited
  deriving DecidableEq, Repr

/-- Program points of the caller of `measureTime(f, true)` after the `go`
statement: blocked in `<-ch`, or past `return <-ch` with the value. -/
inductive CallerPC
  | recv
  | returned (v : ℚ)
  deriving DecidableEq, Repr

/-- The two goroutines of one isolated invocation and the history of the
unbuffered channel `ch`. -/
structure Config where
  caller : CallerPC
  worker : WorkerPC
  delivered : List ℚ
  crashed : Bool
  deriving DecidableEq, Repr

/-- The configuration right after `go func() { ... }()`. -/
def Config.init : Config :=
  { caller := CallerPC.recv, worker := WorkerPC.callF, delivered := [], crashed := false }

/-- The expression `recover()` in the deferred function: non-nil exactly
while the goroutine is panicking. -/
def recover (panicking : Bool) : Option Unit := if panicking then some () else none

/-- A send `ch <- v` on the unbuffered channel: it happens when the caller is
blocked in `<-ch`, and is otherwise blocked for ever (`none`). -/
def sendOn (cfg : Config) (v : ℚ) (next : WorkerPC) : Option Config :=
  match cfg.caller with
  | CallerPC.recv =>
    some { cfg with caller := CallerPC.returned v, worker := next,
                    delivered := cfg.delivered ++ [v] }
  | CallerPC.returned _ => none

/-- One step of an isolated invocation; `none` when nothing can move. The
caller's only action is the receive, which happens jointly with a send, so
the goroutine's program order fixes the steps. -/
def step (c : Call) (cfg : Config) : Option Config :=
  if cfg.crashed then none
  else
    match cfg.worker with
    | WorkerPC.callF =>
      match c.f with
      | UnitResult.completed =>
        some { cfg with worker := WorkerPC.sendElapsed (elapsedMs c.start c.fin) }
      | UnitResult.panicked => some { cfg with worker := WorkerPC.deferred true }
      | UnitResult.fatal => some { cfg with crashed := true }
      | UnitResult.hangs => some cfg
    | WorkerPC.sendElapsed v => sendOn cfg v (WorkerPC.deferred false)
    | WorkerPC.deferred panicking =>
      if (recover panicking).isSome then some { cfg with worker := WorkerPC.sendFail }
      else some { cfg with worker := WorkerPC.exited }
    | WorkerPC.sendFail => sendOn cfg (-1) WorkerPC.exited
    | WorkerPC.exited => none

/-- The configuration after at most `fuel` steps. -/
def run (c : Call) : Nat → Config → Config
  | 0, cfg => cfg
  | fuel + 1, cfg =>
    match step c cfg with
    | none => cfg
    | some cfg1 => run c fuel cfg1

/-- What the caller has observed in a configuration. -/
def Config.outcome (cfg : Config) : Outcome :=
  if cfg.crashed then Outcome.crashed
  else
    match cfg.caller with
    | CallerPC.returned v => Outcome.returned v
    | CallerPC.recv => Outcome.blocked

/-- The number of steps after which an isolated invocation has come to rest
whenever `f` does not hang: call, send, deferred check, and a send or exit. -/
def isolatedSteps : Nat := 4

/-- Source `measureTime(f, isRecursive)`. -/
def measureTime (c : Call) (isRecursive : Bool) : Outcome :=
  if isRecursive then (run c isolatedSteps Config.init).outcome
  else
    match c.f with
    | UnitResult.completed => Outcome.returned (elapsedMs c.start c.fin)
    | UnitResult.panicked => Outcome.panics
    | UnitResult.fatal => Outcome.crashed
    | UnitResult.hangs => Outcome.blocked

/-- The closure `func() { _ = countCapitalRecursive(text, 0) }` run on a
goroutine whose stack holds `frames` frames of the recursion. -/
def recursiveUnit (frames : Nat) (text : GoString) : UnitResult :=
  match countCapitalRecursiveOnStack frames text 0 with
  | some _ => UnitResult.completed
  | none => UnitResult.fatal

/-- The closure `func() { _ = countCapitalIterative(text) }`: a single frame
and a loop that ends, so the call returns for every text. -/
def iterativeUnit (_text : GoString) : UnitResult := UnitResult.completed

/-! ## `generateRandomText` -/

/-- The local `letters` of `generateRandomText`, as bytes. -/
def letters : GoString :=
  "abcdefghijklmnopqrstuvwxyzABCDEFGHIJKLMNOPQRSTUVWXYZ0123456789 ".toList.map Char.toNat

/-- The loop `for i := 0; i < length; i++ { b[i] = letters[rand.Intn(len(letters))] }`
with `remaining` iterations to go; `rnd i` is what the call of `rand.Intn` in
iteration `i` returns. `none` is the index-out-of-range panic of `letters[...]`. -/
def fillLoop (rnd : Nat → Nat) (length : Nat) : Nat → List Nat → Option (List Nat)
  | 0, b => some b
  | remaining + 1, b =>
    let i := length - (remaining + 1)
    match letters.get? (rnd i) with
    | none => none
    | some c => fillLoop rnd length remaining (b.set i c)

/-- Source `generateRandomText(length)`; `none` when it panics (`make` with a
negative length, or an index outside `letters`). -/
def generateRandomText (rnd : Nat → Nat) (length : Int) : Option GoString :=
  if length < 0 then none
  else fillLoop rnd length.toNat length.toNat (List.replicate length.toNat 0)

/-- The alphabet as the specification words it: a-z, A-Z, 0-9 and the space. -/
def inAlphabet (c : Nat) : Bool :=
  (decide (97 ≤ c) && decide (c ≤ 122)) || (decide (65 ≤ c) && decide (c ≤ 90))
    || (decide (48 ≤ c) && decide (c ≤ 57)) || decide (c = 32)

/-! ## Formatting -/

/-- The last decimal digit of `d` as a character. -/
def digitChar (d : Nat) : Char := Char.ofNat (48 + d % 10)

/-- The decimal digits of `n`, most significant first, `0` for zero. -/
def decimalChars (n : Nat) : List Char :=
  if n = 0 then ['0'] else (Nat.digits 10 n).reverse.map digitChar

/-- The verb `%.4f`: sign, integer digits, a point and four decimals, the
value rounded to the nearest ten-thousandth, ties to even. -/
def fmtF4 (x : ℚ) : String :=
  let scaled := roundHalfEven (|x| * 10000)
  String.mk ((if x < 0 then ['-'] else []) ++ decimalChars (scaled / 10000) ++ ['.']
    ++ [digitChar (scaled / 1000), digitChar (scaled / 100), digitChar (scaled / 10),
        digitChar scaled])

/-- Right alignment in a field of width `w` (`%6d`, `%21s`, `%21.4f`). -/
def padLeft (w : Nat) (s : String) : String :=
  String.mk (List.replicate (w - s.length) ' ' ++ s.data)

/-- The recursive column of a row: `recStr := fmt.Sprintf("%.4f", rec)`,
replaced by `"ERR"` when `rec < 0`. -/
def recCell (rec : ℚ) : String := if rec < 0 then "ERR" else fmtF4 rec

/-- The line `"| %6d | %21s | %21.4f |\n"` of a row. -/
def rowLine (n : Nat) (recStr : String) (it : ℚ) : String :=
  "| " ++ padLeft 6 (String.mk (decimalChars n)) ++ " | " ++ padLeft 21 recStr ++ " | "
    ++ padLeft 21 (fmtF4 it) ++ " |\n"

/-- The rule printed under the header and under every row. -/
def separator : String := "+--------+-----------------------+-----------------------+\n"

/-- The four header lines, the same on the console and in the file. -/
def header : List String :=
  ["=== HASIL PENGUJIAN JUMLAH HURUF KAPITAL ===\n", separator,
   "| " ++ "n     " ++ " | " ++ "Waktu Rekursif (ms)  " ++ " | " ++ "Waktu Iteratif (ms)  " ++ " |\n",
   separator]

/-- The note that ends `TIMERRUNNING.txt`. -/
def footer : String := "\nCatatan: \x27ERR\x27 berarti fungsi rekursif stack overflow.\n"

/-! ## The sweep of `main` -/

/-- The two strategies, in the order `main` measures them. -/
inductive Strategy
  | recursive
  | iterative
  deriving DecidableEq, Repr

/-- The units of work of a sweep: for the iteration at index `i`, the
invocation of `measureTime` on the recursive closure and the one on the
iterative closure. -/
structure SweepEnv where
  recCall : Nat → Call
  itCall : Nat → Call

/-- One invocation of `measureTime` by `main`: the loop index, the strategy
whose closure is passed, and the flag passed as `isRecursive`. -/
structure Invocation where
  index : Nat
  strategy : Strategy
  isolated : Bool
  deriving DecidableEq, Repr

/-- The closure of strategy `s` built in iteration `i`. -/
def SweepEnv.unit (env : SweepEnv) (i : Nat) : Strategy → Call
  | Strategy.recursive => env.recCall i
  | Strategy.iterative => env.itCall i

/-- The variables of `main` that the sweep loop writes, and `log`, the
invocations of `measureTime` so far. -/
structure MainState where
  recTimes : List ℚ
  iterTimes : List ℚ
  console : List String
  log : List Invocation
  deriving DecidableEq, Repr

/-- The call `measureTime(closure of s, isRecursive)` in iteration `i`: what
it hands back, and the log with this invocation added. -/
def invoke (env : SweepEnv) (log : List Invocation) (i : Nat) (s : Strategy)
    (isRecursive : Bool) : Outcome × List Invocation :=
  (measureTime (env.unit i s) isRecursive,
    log ++ [{ index := i, strategy := s, isolated := isRecursive }])

/-- How the sweep loop ended. -/
inductive Status
  | finished
  | aborted (o : Outcome)
  deriving DecidableEq, Repr

/-- The state before the loop: both slices made with `len(sizes)` zeros, the
header printed. -/
def MainState.init (sizes : List Nat) : MainState :=
  { recTimes := List.replicate sizes.length 0, iterTimes := List.replicate sizes.length 0,
    console := header, log := [] }

/-- The body of `for i, n := range sizes` once both measurements returned:
the two assignments and the two prints. -/
def record (i n : Nat) (rec it : ℚ) (st : MainState) : MainState :=
  { st with recTimes := st.recTimes.set i rec, iterTimes := st.iterTimes.set i it,
            console := st.console ++ [rowLine n (recCell rec) it, separator] }

/-- The loop `for i, n := range sizes` of `main`, from index `i` on. A
measurement that does not return ends the loop: nothing in `main` recovers.
The sizes are lengths `n >= 0`, for which `text := generateRandomText(n)`
returns; the text acts on the loop only through how the two closures over it
end, which `env` gives. -/
def sweepLoop (env : SweepEnv) : Nat → List Nat → MainState → Status × MainState
  | _, [], st => (Status.finished, st)
  | i, n :: rest, st =>
    match invoke env st.log i Strategy.recursive true with
    | (Outcome.returned rec, log1) =>
      match invoke env log1 i Strategy.iterative false with
      | (Outcome.returned it, log2) =>
        sweepLoop env (i + 1) rest (record i n rec it { st with log := log2 })
      | (o, log2) => (Status.aborted o, { st with log := log2 })
    | (o, log1) => (Status.aborted o, { st with log := log1 })

/-- The sweep of `main` over `sizes`. -/
def sweep (env : SweepEnv) (sizes : List Nat) : Status × MainState :=
  sweepLoop env 0 sizes (MainState.init sizes)

/-- The literal `sizes` of `main`. -/
def mainSizes : List Nat := [3000, 8000, 31000, 49000, 56000, 131000]

/-- The rows that the second loop of `main` writes to the file, from index
`i` on. The slices have `len(sizes)` entries, so the default is never read. -/
def fileRows : Nat → List Nat → List ℚ → List ℚ → List String
  | _, [], _, _ => []
  | i, n :: rest, recTimes, iterTimes =>
    rowLine n (recCell (recTimes.getD i 0)) (iterTimes.getD i 0) :: separator
      :: fileRows (i + 1) rest recTimes iterTimes

/-- The contents of `TIMERRUNNING.txt` when `os.Create` succeeds. -/
def fileTable (sizes : List Nat) (recTimes iterTimes : List ℚ) : List String :=
  header ++ fileRows 0 sizes recTimes iterTimes ++ [footer]

/-- The loop that builds `ptsRec` and `ptsIt`, from index `i` on. -/
def plotLoop : Nat → List Nat → List ℚ → List ℚ → List (ℚ × ℚ) → List (ℚ × ℚ)
    → List (ℚ × ℚ) × List (ℚ × ℚ)
  | _, [], _, _, ptsRec, ptsIt => (ptsRec, ptsIt)
  | i, n :: rest, recTimes, iterTimes, ptsRec, ptsIt =>
    plotLoop (i + 1) rest recTimes iterTimes
      (if 0 ≤ recTimes.getD i 0 then ptsRec ++ [((n : ℚ), recTimes.getD i 0)] else ptsRec)
      (ptsIt ++ [((n : ℚ), iterTimes.getD i 0)])

/-- The two series handed to the plot: `(ptsRec, ptsIt)`. -/
def plotPoints (sizes : List Nat) (recTimes iterTimes : List ℚ) :
    List (ℚ × ℚ) × List (ℚ × ℚ) :=
  plotLoop 0 sizes recTimes iterTimes [] []

/-! ## Reference descriptions used in the statements -/

/-- The value that the isolated measurement at index `i` hands to `main`
(zero, the slice's initial value, if it hands over none). -/
def recValue (env : SweepEnv) (i : Nat) : ℚ :=
  match measureTime (env.recCall i) true with
  | Outcome.returned v => v
  | _ => 0

/-- The value that the direct measurement at index `i` hands to `main`
(zero, the slice's initial value, if it hands over none). -/
def itValue (env : SweepEnv) (i : Nat) : ℚ :=
  match measureTime (env.itCall i) false with
  | Outcome.returned v => v
  | _ => 0

/-- The two invocations that iteration `i` is to make, in order: the
recursive strategy isolated, then the iterative strategy not isolated. -/
def pairLog (i : Nat) : List Invocation :=
  [{ index := i, strategy := Strategy.recursive, isolated := true },
   { index := i, strategy := Strategy.iterative, isolated := false }]

/-- The two console lines of the row for the size at index `i`. -/
def rowOf (env : SweepEnv) (sizes : List Nat) (i : Nat) : List String :=
  [rowLine (sizes.getD i 0) (recCell (recValue env i)) (itValue env i), separator]

/-- The state of `main` once the sizes `done` have been measured and the
sizes `todo` are still to come: recorded values, then untouched zeros. -/
def progress (env : SweepEnv) (done todo : List Nat) : MainState :=
  { recTimes := (List.range done.length).map (recValue env) ++ List.replicate todo.length 0,
    iterTimes := (List.range done.length).map (itValue env) ++ List.replicate todo.length 0,
    console := header ++ (List.range done.length).flatMap (rowOf env done),
    log := (List.range done.length).flatMap pairLog }

/-- The value of a decimal digit character. -/
def digitValue (c : Char) : Option Nat :=
  if 48 ≤ c.toNat ∧ c.toNat ≤ 57 then some (c.toNat - 48) else none

/-- Reading of decimal digits, most significant first, onto `acc`. -/
def natValueAux : List Char → Nat → Option Nat
  | [], acc => some acc
  | c :: cs, acc =>
    match digitValue c with
    | some d => natValueAux cs (10 * acc + d)
    | none => none

/-- The number that a non-empty run of decimal digits denotes. -/
def natValue (cs : List Char) : Option Nat :=
  match cs with
  | [] => none
  | _ => natValueAux cs 0

/-- The number that a text of the shape `[-]digits.digits` denotes. -/
def decimalValue (s : String) : Option ℚ :=
  let neg := decide (s.data.head? = some '-')
  let body := if neg then s.data.tail else s.data
  match body.splitOn '.' with
  | [ip, fp] =>
    match natValue ip, natValue fp with
    | some a, some b => some ((if neg then -1 else 1) * ((a : ℚ) + (b : ℚ) / 10 ^ fp.length))
    | _, _ => none
  | _ => none

/-- A text without the blanks around it. -/
def trimBlanks (cs : List Char) : List Char :=
  ((cs.dropWhile (fun c => c == ' ')).reverse.dropWhile (fun c => c == ' ')).reverse

/-- The cells of a table line: the texts between its bars, blanks trimmed. -/
def cellsOfLine (line : String) : List String :=
  ((line.data.splitOn '|').tail.dropLast).map (fun cs => String.mk (trimBlanks cs))

/-- Both measurements of iteration `i` hand a value to `main`. -/
def BothReturn (env : SweepEnv) (i : Nat) : Prop :=
  (∃ v, measureTime (env.recCall i) true = Outcome.returned v) ∧
    (∃ v, measureTime (env.itCall i) false = Outcome.returned v)

/-- The readings of a call come from a monotonic clock: `int64` nanoseconds
since process start that never decrease. -/
def ClockOk (c : Call) : Prop := 0 ≤ c.start ∧ c.start ≤ c.fin ∧ c.fin < 2 ^ 63

/-! ## Counting: lemmas -/

theorem countP_drop_succ (s : GoString) (k : Nat) (hk : k < s.length) :
    (s.drop k).countP isCapital
      = (if isCapital (s.getD k 0) then 1 else 0) + (s.drop (k + 1)).countP isCapital := by
  rw [List.drop_eq_getElem_cons hk, List.countP_cons]
  have : s.getD k 0 = s[k] := by simp [List.getD_eq_getElem?_getD, hk]
  rw [this]; omega

theorem countP_drop_skip (s : GoString) (k : Nat) (hk : k < s.length)
    (hb : isCapital (s.getD k 0) = false) :
    (s.drop k).countP isCapital = (s.drop (k + 1)).countP isCapital := by
  rw [countP_drop_succ s k hk, hb]; simp

theorem isCapital_of_ge {b : Nat} (h : runeSelf ≤ b) : isCapital b = false := by
  simp only [runeSelf] at h
  simp [isCapital]; omega

theorem isCont_ge {b : Nat} (h : isCont b = true) : runeSelf ≤ b := by
  simp [isCont, locb, hicb] at h
  simp [runeSelf]; omega

theorem isCapital_eq_mem (b : Nat) : isCapital b = decide (b ∈ upperLetters) := by
  by_cases h : 65 ≤ b ∧ b ≤ 90
  · obtain ⟨h1, h2⟩ := h
    interval_cases b <;> decide
  · have h1 : isCapital b = false := by
      simp only [isCapital, Bool.and_eq_false_iff, decide_eq_false_iff_not]
      omega
    have h2 : b ∉ upperLetters := by
      intro hb
      have hall : ∀ x ∈ upperLetters, 65 ≤ x ∧ x ≤ 90 := by decide
      exact h (hall b hb)
    simp [h1, h2]

theorem countP_isCapital (l : List Nat) :
    l.countP isCapital = l.countP (fun b => decide (b ∈ upperLetters)) := by
  congr 1
  funext b
  exact isCapital_eq_mem b

theorem countCapitalRecursive_eq_drop (s : GoString) (idx : Nat) :
    countCapitalRecursive s idx = (s.drop idx).countP isCapital := by
  generalize h : s.length - idx = n
  induction n generalizing idx with
  | zero =>
    rw [countCapitalRecursive]
    have hle : s.length ≤ idx := by omega
    simp [hle, List.drop_eq_nil_of_le hle]
  | succ n ih =>
    rw [countCapitalRecursive]
    have hlt : idx < s.length := by omega
    rw [if_neg (by omega), ih (idx + 1) (by omega), countP_drop_succ s idx hlt]

/-- At a byte `>= runeSelf`, `decoderune` yields no capital, moves forward,
and steps over bytes none of which is a capital. -/
theorem decoderune_skip (s : GoString) (k : Nat) (hk : k < s.length)
    (hb : runeSelf ≤ s.getD k 0) :
    isCapital (decoderune s k).1 = false ∧ k < (decoderune s k).2 ∧
      (s.drop k).countP isCapital = (s.drop (decoderune s k).2).countP isCapital := by
  have herr : isCapital runeError = false := by decide
  have h1 : (s.drop k).countP isCapital = (s.drop (k + 1)).countP isCapital :=
    countP_drop_skip s k hk (isCapital_of_ge hb)
  have hstep : ∀ j, j < s.length → isCont (s.getD j 0) = true →
      (s.drop j).countP isCapital = (s.drop (j + 1)).countP isCapital :=
    fun j hj hc => countP_drop_skip s j hj (isCapital_of_ge (isCont_ge hc))
  unfold decoderune
  rw [if_neg (by omega)]
  simp only []
  split_ifs with c1 c2 c3 c4 c5 c6 c7 c8 c9
  all_goals first
    | exact ⟨herr, by simp, h1⟩
    | skip
  · refine ⟨?_, by simp, ?_⟩
    · apply isCapital_of_ge
      simp only [rune1Max, runeSelf] at *
      omega
    · rw [h1, hstep (k + 1) (by omega) c2.2]
  · refine ⟨?_, by simp, ?_⟩
    · apply isCapital_of_ge
      simp only [rune2Max, runeSelf] at *
      omega
    · rw [h1, hstep (k + 1) (by omega) c5.2.1, hstep (k + 2) (by omega) c5.2.2]
  · refine ⟨?_, by simp, ?_⟩
    · apply isCapital_of_ge
      simp only [rune3Max, runeSelf] at *
      omega
    · rw [h1, hstep (k + 1) (by omega) c8.2.1, hstep (k + 2) (by omega) c8.2.2.1,
        hstep (k + 3) (by omega) c8.2.2.2]

theorem rangeNext_skip (s : GoString) (k : Nat) (hk : k < s.length) :
    k < (rangeNext s k).2 ∧
      (s.drop k).countP isCapital
        = (if isCapital (rangeNext s k).1 then 1 else 0)
          + (s.drop (rangeNext s k).2).countP isCapital := by
  by_cases h : s.getD k 0 < runeSelf
  · rw [rangeNext, if_pos h]
    exact ⟨by simp, countP_drop_succ s k hk⟩
  · rw [rangeNext, if_neg h]
    obtain ⟨h1, h2, h3⟩ := decoderune_skip s k hk (by omega)
    refine ⟨h2, ?_⟩
    rw [h1, h3]; simp

theorem rangeLoop_eq (s : GoString) (fuel hv1 count : Nat) (h : s.length - hv1 ≤ fuel) :
    rangeLoop s fuel hv1 count = count + (s.drop hv1).countP isCapital := by
  induction fuel generalizing hv1 count with
  | zero =>
    have hle : s.length ≤ hv1 := by omega
    simp [rangeLoop, List.drop_eq_nil_of_le hle]
  | succ n ih =>
    unfold rangeLoop
    split_ifs with hlt
    · obtain ⟨h2, h3⟩ := rangeNext_skip s hv1 hlt
      simp only []
      rw [ih _ _ (by omega), h3]
      split_ifs <;> omega
    · have hle : s.length ≤ hv1 := by omega
      simp [List.drop_eq_nil_of_le hle]

theorem countCapitalRecursiveOnStack_eq (frames : Nat) (s : GoString) (idx : Nat)
    (h : s.length - idx < frames) :
    countCapitalRecursiveOnStack frames s idx = some (countCapitalRecursive s idx) := by
  induction frames generalizing idx with
  | zero => omega
  | succ n ih =>
    rw [countCapitalRecursiveOnStack, countCapitalRecursive]
    by_cases hle : s.length ≤ idx
    · rw [if_pos hle, if_pos hle]
    · rw [if_neg hle, if_neg hle, ih (idx + 1) (by omega)]

theorem countCapitalRecursiveOnStack_none (frames : Nat) (s : GoString) (idx : Nat)
    (h : frames + idx ≤ s.length) :
    countCapitalRecursiveOnStack frames s idx = none := by
  induction frames generalizing idx with
  | zero => rfl
  | succ n ih =>
    rw [countCapitalRecursiveOnStack, if_neg (by omega), ih (idx + 1) (by omega)]

/-! ## `measureTime`: lemmas -/

theorem subMono_eq (t u : Int) (h0 : 0 ≤ u) (h1 : u ≤ t) (h2 : t < 2 ^ 63) :
    subMono t u = t - u := by
  have hw : wrap64 (t - u) = t - u := by
    unfold wrap64
    omega
  unfold subMono
  simp only [hw]
  rw [if_neg (by omega), if_neg (by omega)]

theorem roundHalfEven_err (q : ℚ) (hq : 0 ≤ q) :
    |((roundHalfEven q : Nat) : ℚ) - q| ≤ 1 / 2 := by
  have h1 : ((⌊q⌋₊ : Nat) : ℚ) ≤ q := Nat.floor_le hq
  have h2 : q < ((⌊q⌋₊ : Nat) : ℚ) + 1 := Nat.lt_floor_add_one q
  unfold roundHalfEven
  simp only []
  split_ifs with c1 c2 c3
  · rw [abs_le]; constructor <;> linarith
  · rw [abs_le]; push_cast; constructor <;> linarith
  · rw [abs_le]; constructor <;> linarith
  · rw [abs_le]; push_cast; constructor <;> linarith

theorem roundBinary64_nonneg (q : ℚ) (hq : 0 ≤ q) : 0 ≤ roundBinary64 q := by
  unfold roundBinary64
  split_ifs with h0 hneg
  · exact le_refl _
  · exact absurd hneg (not_lt.mpr hq)
  · simp only []
    positivity

theorem roundBinary64_zero : roundBinary64 0 = 0 := by
  simp [roundBinary64]

/-- In the normal range the rounding error is at most half a unit in the last
place, a `2^53`-th of the value. -/
theorem roundBinary64_err (q : ℚ) (hq : (2 : ℚ) ^ (-1022 : ℤ) ≤ q) :
    |roundBinary64 q - q| ≤ q / 2 ^ 53 := by
  have hpos : 0 < q := lt_of_lt_of_le (by positivity) hq
  have hlog : (-1022 : ℤ) ≤ Int.log 2 q := by
    rw [← Int.zpow_le_iff_le_log (by norm_num) hpos]
    simpa using hq
  have hle : ((2 : ℕ) : ℚ) ^ Int.log 2 q ≤ q := Int.zpow_log_le_self (by norm_num) hpos
  simp only [Nat.cast_ofNat] at hle
  have habs : |q| = q := abs_of_pos hpos
  have hulp : (0 : ℚ) < 2 ^ (Int.log 2 q - 52) := by positivity
  have hsplit : (2 : ℚ) ^ (Int.log 2 q - 52) = 2 ^ Int.log 2 q / 2 ^ 52 := by
    rw [zpow_sub₀ (by norm_num)]
    norm_num
  have herr := roundHalfEven_err (q / 2 ^ (Int.log 2 q - 52)) (by positivity)
  unfold roundBinary64
  rw [if_neg (ne_of_gt hpos), if_neg (not_lt.mpr (le_of_lt hpos)), habs, max_eq_left hlog]
  simp only [one_mul]
  have hfac : ((roundHalfEven (q / 2 ^ (Int.log 2 q - 52)) : Nat) : ℚ) * 2 ^ (Int.log 2 q - 52) - q
      = (((roundHalfEven (q / 2 ^ (Int.log 2 q - 52)) : Nat) : ℚ) - q / 2 ^ (Int.log 2 q - 52))
          * 2 ^ (Int.log 2 q - 52) := by
    field_simp
  rw [hfac, abs_mul, abs_of_pos hulp]
  calc |((roundHalfEven (q / 2 ^ (Int.log 2 q - 52)) : Nat) : ℚ) - q / 2 ^ (Int.log 2 q - 52)|
          * 2 ^ (Int.log 2 q - 52)
        ≤ 1 / 2 * 2 ^ (Int.log 2 q - 52) := by
          exact mul_le_mul_of_nonneg_right herr (le_of_lt hulp)
    _ = 2 ^ Int.log 2 q / 2 ^ 53 := by
          rw [hsplit]; ring
    _ ≤ q / 2 ^ 53 := by
          exact div_le_div_of_nonneg_right hle (by positivity)

theorem roundHalfEven_le (q : ℚ) : roundHalfEven q ≤ ⌊q⌋₊ + 1 := by
  unfold roundHalfEven
  simp only []
  split_ifs <;> omega

/-- A rounded value has at most 53 significant bits. -/
theorem roundBinary64_repr (q : ℚ) (hq : 0 ≤ q) :
    ∃ m : ℕ, ∃ k : ℤ, m ≤ 2 ^ 53 ∧ roundBinary64 q = (m : ℚ) * (2 : ℚ) ^ k := by
  rcases eq_or_lt_of_le hq with h0 | hpos
  · exact ⟨0, 0, by norm_num, by rw [← h0, roundBinary64_zero]; simp⟩
  · have hlt : q < ((2 : ℕ) : ℚ) ^ (Int.log 2 q + 1) := Int.lt_zpow_succ_log_self (by norm_num) q
    simp only [Nat.cast_ofNat] at hlt
    have hmono : (2 : ℚ) ^ (Int.log 2 q + 1) ≤ 2 ^ (max (Int.log 2 q) (-1022) + 1) :=
      zpow_le_zpow_right₀ (by norm_num) (by omega)
    have hsplit : (2 : ℚ) ^ (max (Int.log 2 q) (-1022) + 1)
        = 2 ^ (max (Int.log 2 q) (-1022) - 52) * 2 ^ (53 : ℕ) := by
      rw [← zpow_natCast (2 : ℚ) 53, ← zpow_add₀ (by norm_num)]
      congr 1
      push_cast
      ring
    have hulp : (0 : ℚ) < 2 ^ (max (Int.log 2 q) (-1022) - 52) := by positivity
    have hdiv : q / 2 ^ (max (Int.log 2 q) (-1022) - 52) < ((2 ^ 53 : ℕ) : ℚ) := by
      rw [div_lt_iff₀ hulp]
      push_cast
      calc q < 2 ^ (max (Int.log 2 q) (-1022) + 1) := lt_of_lt_of_le hlt hmono
        _ = 2 ^ 53 * 2 ^ (max (Int.log 2 q) (-1022) - 52) := by rw [hsplit]; ring
    have hfl : ⌊q / 2 ^ (max (Int.log 2 q) (-1022) - 52)⌋₊ < 2 ^ 53 :=
      (Nat.floor_lt (by positivity)).mpr hdiv
    refine ⟨roundHalfEven (q / 2 ^ (max (Int.log 2 q) (-1022) - 52)),
      max (Int.log 2 q) (-1022) - 52, ?_, ?_⟩
    · have := roundHalfEven_le (q / 2 ^ (max (Int.log 2 q) (-1022) - 52))
      omega
    · unfold roundBinary64
      rw [if_neg (ne_of_gt hpos), if_neg (not_lt.mpr (le_of_lt hpos)), abs_of_pos hpos]
      simp only [one_mul]

/-- A value with at most 53 significant bits is a `float64`. -/
theorem roundBinary64_exact (q : ℚ) (k : ℤ) (m : ℕ) (hk : -1022 ≤ k)
    (h1 : (2 : ℚ) ^ k ≤ q) (h2 : q < (2 : ℚ) ^ (k + 1))
    (hm : q = (m : ℚ) * (2 : ℚ) ^ (k - 52)) : roundBinary64 q = q := by
  have hpos : 0 < q := lt_of_lt_of_le (by positivity) h1
  have hlog : Int.log 2 q = k := by
    apply le_antisymm
    · have : Int.log 2 q < k + 1 := by
        rw [← Int.lt_zpow_iff_log_lt (by norm_num) hpos]
        simpa using h2
      omega
    · rw [← Int.zpow_le_iff_le_log (by norm_num) hpos]
      simpa using h1
  have hulp : (0 : ℚ) < 2 ^ (k - 52) := by positivity
  have hdiv : q / 2 ^ (k - 52) = (m : ℚ) := by
    rw [hm]; field_simp
  have hround : roundHalfEven (m : ℚ) = m := by
    simp [roundHalfEven]
  unfold roundBinary64
  rw [if_neg (ne_of_gt hpos), if_neg (not_lt.mpr (le_of_lt hpos)), abs_of_pos hpos, hlog,
    max_eq_left hk]
  simp only [one_mul]
  rw [hdiv, hround, ← hm]

theorem roundHalfEven_eq (q : ℚ) (n : ℕ) (h1 : (n : ℚ) - 1 / 2 < q) (h2 : q < (n : ℚ) + 1 / 2) :
    roundHalfEven q = n := by
  rcases lt_or_le q (n : ℚ) with hlt | hge
  · rcases Nat.eq_zero_or_pos n with h0 | hpos
    · subst h0
      have hfl : ⌊q⌋₊ = 0 := Nat.floor_of_nonpos (by simpa using le_of_lt hlt)
      unfold roundHalfEven
      simp only [hfl]
      rw [if_pos (by simp at hlt ⊢; linarith)]
    · have hq : (0 : ℚ) ≤ q := by
        have : (1 : ℚ) ≤ (n : ℚ) := by exact_mod_cast hpos
        linarith
      have hfl : ⌊q⌋₊ = n - 1 := by
        rw [Nat.floor_eq_iff hq]
        have hc : ((n - 1 : ℕ) : ℚ) = (n : ℚ) - 1 := by
          rw [Nat.cast_sub hpos]; simp
        rw [hc]
        constructor <;> linarith
      have hc : ((n - 1 : ℕ) : ℚ) = (n : ℚ) - 1 := by
        rw [Nat.cast_sub hpos]; simp
      unfold roundHalfEven
      simp only [hfl, hc]
      rw [if_neg (by linarith), if_pos (by linarith)]
      omega
  · have hq : (0 : ℚ) ≤ q := le_trans (Nat.cast_nonneg n) hge
    have hfl : ⌊q⌋₊ = n := by
      rw [Nat.floor_eq_iff hq]
      constructor <;> linarith
    unfold roundHalfEven
    simp only [hfl]
    rw [if_pos (by linarith)]

/-- The rounding of a value between two neighbouring `float64`s, away from
the midpoint. -/
theorem roundBinary64_eq (q : ℚ) (k : ℤ) (n : ℕ) (hk : -1022 ≤ k)
    (h1 : (2 : ℚ) ^ k ≤ q) (h2 : q < (2 : ℚ) ^ (k + 1))
    (hn1 : (n : ℚ) - 1 / 2 < q / (2 : ℚ) ^ (k - 52))
    (hn2 : q / (2 : ℚ) ^ (k - 52) < (n : ℚ) + 1 / 2) :
    roundBinary64 q = (n : ℚ) * (2 : ℚ) ^ (k - 52) := by
  have hpos : 0 < q := lt_of_lt_of_le (by positivity) h1
  have hlog : Int.log 2 q = k := by
    apply le_antisymm
    · have : Int.log 2 q < k + 1 := by
        rw [← Int.lt_zpow_iff_log_lt (by norm_num) hpos]
        simpa using h2
      omega
    · rw [← Int.zpow_le_iff_le_log (by norm_num) hpos]
      simpa using h1
  unfold roundBinary64
  rw [if_neg (ne_of_gt hpos), if_neg (not_lt.mpr (le_of_lt hpos)), abs_of_pos hpos, hlog,
    max_eq_left hk]
  simp only [one_mul]
  rw [roundHalfEven_eq _ n hn1 hn2]

/-- Fifty nanoseconds measure as the `float64` just above `0.00005`. -/
theorem elapsedMs_fifty : elapsedMs 0 50 = 7378697629483821 / 2 ^ 67 := by
  rw [elapsedMs, subMono_eq _ _ (by norm_num) (by norm_num) (by norm_num), float64Div,
    float64OfInt]
  have e1 := roundBinary64_exact 50 5 (50 * 2 ^ 47) (by norm_num) (by norm_num)
    (by norm_num) (by norm_num)
  have e2 := roundBinary64_eq (1 / 20000) (-15) 7378697629483821 (by norm_num) (by norm_num)
    (by norm_num) (by norm_num) (by norm_num)
  have h50 : (((50 - 0 : Int) : ℚ)) = 50 := by norm_num
  rw [h50, e1, show (50 : ℚ) / 1000000 = 1 / 20000 by norm_num, e2]
  norm_num

theorem elapsedMs_of_clock (c : Call) (h : ClockOk c) :
    elapsedMs c.start c.fin = float64Div (float64OfInt (c.fin - c.start)) 1000000 := by
  obtain ⟨h0, h1, h2⟩ := h
  rw [elapsedMs, subMono_eq c.fin c.start h0 h1 h2]

theorem elapsedMs_repr (c : Call) (h : ClockOk c) :
    ∃ m : ℕ, ∃ k : ℤ, m ≤ 2 ^ 53 ∧ elapsedMs c.start c.fin = (m : ℚ) * (2 : ℚ) ^ k := by
  rw [elapsedMs_of_clock c h, float64Div]
  apply roundBinary64_repr
  apply div_nonneg _ (by norm_num)
  rw [float64OfInt]
  apply roundBinary64_nonneg
  exact_mod_cast (by have := h.2.1; omega : (0 : Int) ≤ c.fin - c.start)

theorem elapsedMs_nonneg (c : Call) (h : ClockOk c) : (0 : ℚ) ≤ elapsedMs c.start c.fin := by
  rw [elapsedMs_of_clock c h, float64Div]
  apply roundBinary64_nonneg
  apply div_nonneg _ (by norm_num)
  rw [float64OfInt]
  apply roundBinary64_nonneg
  exact_mod_cast (by have := h.2.1; omega : (0 : Int) ≤ c.fin - c.start)

/-- The measured milliseconds are the elapsed nanoseconds over a million, up
to the two `float64` roundings. -/
theorem elapsedMs_close (c : Call) (h : ClockOk c) :
    |elapsedMs c.start c.fin - ((c.fin - c.start : Int) : ℚ) / 1000000|
      ≤ ((c.fin - c.start : Int) : ℚ) / 1000000 / 2 ^ 51 := by
  rw [elapsedMs_of_clock c h, float64Div, float64OfInt]
  have hns : (0 : Int) ≤ c.fin - c.start := by have := h.2.1; omega
  rcases eq_or_lt_of_le hns with h0 | hpos
  · rw [← h0]
    simp [roundBinary64_zero]
  · have h1 : (1 : ℚ) ≤ ((c.fin - c.start : Int) : ℚ) := by
      exact_mod_cast (by omega : (1 : Int) ≤ c.fin - c.start)
    generalize ((c.fin - c.start : Int) : ℚ) = ns at h1
    have hsmall : (2 : ℚ) ^ (-1022 : ℤ) ≤ 1 / 2000000 := by
      rw [zpow_neg, ← one_div]
      apply one_div_le_one_div_of_le (by norm_num)
      norm_num
    have e1 := roundBinary64_err ns (le_trans hsmall (by linarith))
    rw [abs_le] at e1
    have hx : (1 : ℚ) / 2 ≤ roundBinary64 ns := by
      have : ns / 2 ^ 53 ≤ ns / 2 := by
        apply div_le_div_of_nonneg_left (by linarith) (by norm_num) (by norm_num)
      linarith
    have e2 := roundBinary64_err (roundBinary64 ns / 1000000)
      (le_trans hsmall (by linarith))
    rw [abs_le] at e2
    rw [abs_le]
    constructor <;> linarith

/-- The configuration in which an isolated invocation rests after handing
`v` over: the caller has returned it, the goroutine has exited. -/
theorem step_rest (c : Call) (v : ℚ) :
    step c { caller := CallerPC.returned v, worker := WorkerPC.exited, delivered := [v],
             crashed := false } = none := by
  simp [step]

theorem run_of_step_none (c : Call) (cfg : Config) (h : step c cfg = none) (n : Nat) :
    run c n cfg = cfg := by
  cases n with
  | zero => rfl
  | succ n => simp [run, h]

theorem run_completed (c : Call) (h : c.f = UnitResult.completed) (n : Nat) :
    run c (n + 3) Config.init
      = { caller := CallerPC.returned (elapsedMs c.start c.fin), worker := WorkerPC.exited,
          delivered := [elapsedMs c.start c.fin], crashed := false } := by
  have := run_of_step_none c _ (step_rest c (elapsedMs c.start c.fin)) n
  simp [run, step, h, Config.init, sendOn, recover, this]

theorem run_panicked (c : Call) (h : c.f = UnitResult.panicked) (n : Nat) :
    run c (n + 3) Config.init
      = { caller := CallerPC.returned (-1), worker := WorkerPC.exited,
          delivered := [-1], crashed := false } := by
  have := run_of_step_none c _ (step_rest c (-1)) n
  simp [run, step, h, Config.init, sendOn, recover, this]

theorem measureTime_completed (c : Call) (h : c.f = UnitResult.completed) (b : Bool) :
    measureTime c b = Outcome.returned (elapsedMs c.start c.fin) := by
  cases b with
  | false => simp [measureTime, h]
  | true =>
    have := run_completed c h 1
    simp only [measureTime, isolatedSteps, if_true]
    rw [this]
    simp [Config.outcome]

theorem measureTime_panicked (c : Call) (h : c.f = UnitResult.panicked) :
    measureTime c true = Outcome.returned (-1) := by
  have := run_panicked c h 1
  simp only [measureTime, isolatedSteps, if_true]
  rw [this]
  simp [Config.outcome]

theorem measureTime_fatal (c : Call) (h : c.f = UnitResult.fatal) (b : Bool) :
    measureTime c b = Outcome.crashed := by
  cases b <;> simp [measureTime, isolatedSteps, run, step, h, Config.init, Config.outcome]

theorem measureTime_hangs (c : Call) (h : c.f = UnitResult.hangs) (b : Bool) :
    measureTime c b = Outcome.blocked := by
  cases b <;> simp [measureTime, isolatedSteps, run, step, h, Config.init, Config.outcome]

theorem run_fatal (c : Call) (h : c.f = UnitResult.fatal) (n : Nat) :
    run c (n + 1) Config.init = { Config.init with crashed := true } := by
  have hstop : step c { Config.init with crashed := true } = none := by
    simp [step]
  have := run_of_step_none c _ hstop n
  simp [run, step, h, Config.init] at this ⊢
  exact this

/-- For a unit that completes or panics, the goroutine hands exactly one
value over the channel: after three steps the invocation rests for good with
the caller holding that value, the goroutine exited and one value delivered;
at no point of the run have two values been delivered. -/
theorem handoff_once_of_completed_or_panicked (c : Call)
    (hf : c.f = UnitResult.completed ∨ c.f = UnitResult.panicked) :
    ∃ v, (∀ n, 3 ≤ n → run c n Config.init
            = { caller := CallerPC.returned v, worker := WorkerPC.exited,
                delivered := [v], crashed := false }) ∧
      step c { caller := CallerPC.returned v, worker := WorkerPC.exited,
               delivered := [v], crashed := false } = none ∧
      (∀ n, (run c n Config.init).delivered.length ≤ 1) ∧
      measureTime c true = Outcome.returned v := by
  rcases hf with hf | hf
  · refine ⟨elapsedMs c.start c.fin, ?_, step_rest c _, ?_, measureTime_completed c hf true⟩
    · intro n hn
      obtain ⟨k, rfl⟩ : ∃ k, n = k + 3 := ⟨n - 3, by omega⟩
      exact run_completed c hf k
    · intro n
      rcases Nat.lt_or_ge n 3 with h | h
      · interval_cases n <;> simp [run, step, hf, Config.init, sendOn]
      · obtain ⟨k, rfl⟩ : ∃ k, n = k + 3 := ⟨n - 3, by omega⟩
        rw [run_completed c hf k]
        simp
  · refine ⟨-1, ?_, step_rest c _, ?_, measureTime_panicked c hf⟩
    · intro n hn
      obtain ⟨k, rfl⟩ : ∃ k, n = k + 3 := ⟨n - 3, by omega⟩
      exact run_panicked c hf k
    · intro n
      rcases Nat.lt_or_ge n 3 with h | h
      · interval_cases n <;> simp [run, step, hf, Config.init, sendOn, recover]
      · obtain ⟨k, rfl⟩ : ∃ k, n = k + 3 := ⟨n - 3, by omega⟩
        rw [run_panicked c hf k]
        simp

theorem recursiveUnit_fatal (frames : Nat) (text : GoString) (h : frames ≤ text.length) :
    recursiveUnit frames text = UnitResult.fatal := by
  simp [recursiveUnit, countCapitalRecursiveOnStack_none frames text 0 (by omega)]

theorem recursiveUnit_completed (frames : Nat) (text : GoString) (h : text.length < frames) :
    recursiveUnit frames text = UnitResult.completed := by
  simp [recursiveUnit, countCapitalRecursiveOnStack_eq frames text 0 (by omega)]

/-! ## The sweep: lemmas -/

theorem progress_init (env : SweepEnv) (sizes : List Nat) :
    MainState.init sizes = progress env [] sizes := by
  simp [MainState.init, progress]

theorem rowOf_append (env : SweepEnv) (done : List Nat) (n i : Nat) (hi : i < done.length) :
    rowOf env (done ++ [n]) i = rowOf env done i := by
  simp only [rowOf]
  rw [List.getD_append _ _ _ _ hi]

theorem record_progress (env : SweepEnv) (done : List Nat) (n : Nat) (todo : List Nat) :
    record done.length n (recValue env done.length) (itValue env done.length)
        { progress env done (n :: todo) with
          log := (progress env done (n :: todo)).log ++ pairLog done.length }
      = progress env (done ++ [n]) todo := by
  have hset : ∀ (g : Nat → ℚ),
      ((List.range done.length).map g ++ List.replicate (n :: todo).length 0).set
          done.length (g done.length)
        = (List.range (done ++ [n]).length).map g ++ List.replicate todo.length 0 := by
    intro g
    rw [List.set_append_right _ _ (by simp)]
    simp [List.range_succ, List.replicate_succ]
  have hrow : (List.range done.length).flatMap (rowOf env (done ++ [n]))
      = (List.range done.length).flatMap (rowOf env done) := by
    apply List.flatMap_congr
    intro i hi
    exact rowOf_append env done n i (by simpa using hi)
  have hlast : rowOf env (done ++ [n]) done.length
      = [rowLine n (recCell (recValue env done.length)) (itValue env done.length), separator] := by
    simp [rowOf, List.getD_append_right]
  simp only [record, progress, hset]
  congr 1
  · simp only [List.length_append, List.length_singleton, List.range_succ, List.flatMap_append,
      List.flatMap_singleton, hrow, hlast, List.append_assoc]
  · simp [List.range_succ, List.flatMap_append, pairLog]

theorem sweepLoop_step (env : SweepEnv) (done : List Nat) (n : Nat) (todo : List Nat)
    (h : BothReturn env done.length) :
    sweepLoop env done.length (n :: todo) (progress env done (n :: todo))
      = sweepLoop env (done ++ [n]).length todo (progress env (done ++ [n]) todo) := by
  obtain ⟨⟨v, hv⟩, ⟨w, hw⟩⟩ := h
  have h1 : recValue env done.length = v := by simp [recValue, hv]
  have h2 : itValue env done.length = w := by simp [itValue, hw]
  have h3 := record_progress env done n todo
  rw [h1, h2] at h3
  rw [sweepLoop]
  simp only [invoke, SweepEnv.unit, hv, hw, List.append_assoc, List.singleton_append]
  simp only [pairLog, List.length_append, List.length_singleton] at h3 ⊢
  rw [h3]

theorem sweepLoop_append (env : SweepEnv) (mid : List Nat) :
    ∀ (done rest : List Nat),
      (∀ j, done.length ≤ j → j < done.length + mid.length → BothReturn env j) →
      sweepLoop env done.length (mid ++ rest) (progress env done (mid ++ rest))
        = sweepLoop env (done ++ mid).length rest (progress env (done ++ mid) rest) := by
  induction mid with
  | nil => intro done rest _; simp
  | cons n mid ih =>
    intro done rest h
    rw [List.cons_append, sweepLoop_step env done n (mid ++ rest) (h _ (le_refl _) (by simp))]
    rw [ih (done ++ [n]) rest (fun j h1 h2 => h j (by simp at h1; omega) (by simp at h1 h2 ⊢; omega))]
    simp

theorem sweep_finished (env : SweepEnv) (sizes : List Nat)
    (h : ∀ j, j < sizes.length → BothReturn env j) :
    sweep env sizes = (Status.finished, progress env sizes []) := by
  have := sweepLoop_append env sizes [] [] (fun j _ h2 => h j (by simpa using h2))
  simp only [List.append_nil, List.nil_append, List.length_nil] at this
  rw [sweep, progress_init env sizes, this, sweepLoop]

/-! ## The sweep: what a run records -/

theorem bothReturn_of (env : SweepEnv) (i : Nat)
    (hrec : (env.recCall i).f = UnitResult.completed ∨ (env.recCall i).f = UnitResult.panicked)
    (hit : (env.itCall i).f = UnitResult.completed) : BothReturn env i := by
  refine ⟨?_, _, measureTime_completed _ hit false⟩
  rcases hrec with h | h
  · exact ⟨_, measureTime_completed _ h true⟩
  · exact ⟨_, measureTime_panicked _ h⟩

theorem recValue_completed (env : SweepEnv) (i : Nat)
    (h : (env.recCall i).f = UnitResult.completed) :
    recValue env i = elapsedMs (env.recCall i).start (env.recCall i).fin := by
  simp [recValue, measureTime_completed _ h]

theorem recValue_panicked (env : SweepEnv) (i : Nat)
    (h : (env.recCall i).f = UnitResult.panicked) : recValue env i = -1 := by
  simp [recValue, measureTime_panicked _ h]

theorem itValue_completed (env : SweepEnv) (i : Nat)
    (h : (env.itCall i).f = UnitResult.completed) :
    itValue env i = elapsedMs (env.itCall i).start (env.itCall i).fin := by
  simp [itValue, measureTime_completed _ h]

theorem getD_map_range (g : Nat → ℚ) (n m i : Nat) (hi : i < n) :
    ((List.range n).map g ++ List.replicate m 0).getD i 0 = g i := by
  rw [List.getD_append _ _ _ _ (by simpa using hi), List.getD_eq_getElem _ _ (by simpa using hi)]
  simp

theorem getD_map_range_zero (g : Nat → ℚ) (n m i : Nat) (hi : n ≤ i) :
    ((List.range n).map g ++ List.replicate m 0).getD i 0 = 0 := by
  rw [List.getD_append_right _ _ _ _ (by simpa using hi)]
  rcases Nat.lt_or_ge (i - (List.map g (List.range n)).length) m with h | h
  · rw [List.getD_eq_getElem _ _ (by simpa using h)]
    simp
  · rw [List.getD_eq_default _ _ (by simpa using h)]

/-! ## Formatting: lemmas -/

theorem digitChar_mem (d : Nat) :
    digitChar d ∈ ['0', '1', '2', '3', '4', '5', '6', '7', '8', '9'] := by
  have h : d % 10 < 10 := Nat.mod_lt _ (by norm_num)
  unfold digitChar
  generalize d % 10 = k at h
  interval_cases k <;> decide

theorem digitValue_digitChar (d : Nat) : digitValue (digitChar d) = some (d % 10) := by
  have h : d % 10 < 10 := Nat.mod_lt _ (by norm_num)
  unfold digitChar
  generalize d % 10 = k at h
  interval_cases k <;> rfl

theorem digit_plain : ∀ c ∈ ['0', '1', '2', '3', '4', '5', '6', '7', '8', '9'],
    c ≠ ' ' ∧ c ≠ '|' ∧ c ≠ '.' ∧ c ≠ '-' := by
  decide

theorem natValueAux_map (l : List Nat) :
    ∀ acc, natValueAux (l.map digitChar) acc
      = some (l.foldl (fun a d => 10 * a + d % 10) acc) := by
  induction l with
  | nil => intro acc; rfl
  | cons d l ih =>
    intro acc
    simp only [List.map_cons, natValueAux, digitValue_digitChar, List.foldl_cons]
    exact ih _

theorem natValue_of_ne_nil (cs : List Char) (h : cs ≠ []) : natValue cs = natValueAux cs 0 := by
  cases cs with
  | nil => exact absurd rfl h
  | cons c cs => rfl

theorem foldr_digits (l : List Nat) (h : ∀ d ∈ l, d < 10) :
    l.foldr (fun d a => 10 * a + d % 10) 0 = Nat.ofDigits 10 l := by
  induction l with
  | nil => rfl
  | cons d l ih =>
    have hd : d % 10 = d := Nat.mod_eq_of_lt (h d (List.mem_cons_self _ _))
    rw [List.foldr_cons, ih (fun x hx => h x (List.mem_cons_of_mem _ hx)), Nat.ofDigits_cons, hd]
    ring

theorem natValue_decimalChars (n : Nat) : natValue (decimalChars n) = some n := by
  by_cases h0 : n = 0
  · subst h0
    rfl
  · have hne : (Nat.digits 10 n).reverse.map digitChar ≠ [] := by
      simp [Nat.digits_ne_nil_iff_ne_zero, h0]
    rw [decimalChars, if_neg h0, natValue_of_ne_nil _ hne, natValueAux_map, List.foldl_reverse,
      foldr_digits _ (fun d hd => Nat.digits_lt_base (by norm_num) hd), Nat.ofDigits_digits]

theorem decimalChars_ne_nil (n : Nat) : decimalChars n ≠ [] := by
  intro h
  have := natValue_decimalChars n
  rw [h] at this
  cases this

theorem decimalChars_digit (n : Nat) :
    ∀ c ∈ decimalChars n, c ∈ ['0', '1', '2', '3', '4', '5', '6', '7', '8', '9'] := by
  intro c hc
  unfold decimalChars at hc
  split_ifs at hc with h0
  · simp only [List.mem_singleton] at hc
    rw [hc]
    decide
  · simp only [List.mem_map] at hc
    obtain ⟨d, -, rfl⟩ := hc
    exact digitChar_mem d

theorem natValue_frac4 (m : Nat) :
    natValue [digitChar (m / 1000), digitChar (m / 100), digitChar (m / 10), digitChar m]
      = some (m % 10000) := by
  have := natValueAux_map [m / 1000, m / 100, m / 10, m] 0
  simp only [List.map_cons, List.map_nil, List.foldl_cons, List.foldl_nil] at this
  rw [natValue_of_ne_nil _ (by simp), this]
  congr 1
  omega

theorem splitOn_two (x : Char) (a b : List Char) (ha : x ∉ a) (hb : x ∉ b) :
    (a ++ x :: b).splitOn x = [a, b] := by
  have := List.splitOn_intercalate [a, b] x (by
    intro l hl
    simp only [List.mem_cons, List.mem_singleton, List.not_mem_nil, or_false] at hl
    rcases hl with rfl | rfl
    · exact ha
    · exact hb) (by simp)
  simpa [List.intercalate] using this

theorem decimalValue_neg (ip fp : List Char) (a b : Nat)
    (hip : '.' ∉ ip) (hfp : '.' ∉ fp) (ha : natValue ip = some a) (hb : natValue fp = some b) :
    decimalValue (String.mk ('-' :: (ip ++ '.' :: fp)))
      = some (-1 * ((a : ℚ) + (b : ℚ) / 10 ^ fp.length)) := by
  unfold decimalValue
  dsimp only
  simp only [List.head?_cons, decide_True, if_true, List.tail_cons, splitOn_two '.' ip fp hip hfp,
    ha, hb]

theorem decimalValue_pos (ip fp : List Char) (a b : Nat) (hneg : ip.head? ≠ some '-')
    (hip : '.' ∉ ip) (hfp : '.' ∉ fp) (ha : natValue ip = some a) (hb : natValue fp = some b) :
    decimalValue (String.mk (ip ++ '.' :: fp))
      = some (1 * ((a : ℚ) + (b : ℚ) / 10 ^ fp.length)) := by
  have hne : ip ≠ [] := by
    intro h
    rw [h] at ha
    cases ha
  have hh : (ip ++ '.' :: fp).head? ≠ some '-' := by
    cases ip with
    | nil => exact absurd rfl hne
    | cons c cs => simpa using hneg
  unfold decimalValue
  dsimp only
  simp only [hh, decide_False, Bool.false_eq_true, if_false, splitOn_two '.' ip fp hip hfp,
    ha, hb]

/-- The text printed by `%.4f` reads back as the value rounded to the nearest
ten-thousandth. -/
theorem decimalValue_fmtF4 (x : ℚ) :
    decimalValue (fmtF4 x)
      = some ((if x < 0 then -1 else 1) * (((roundHalfEven (|x| * 10000) : Nat) : ℚ) / 10000)) := by
  generalize hm : roundHalfEven (|x| * 10000) = m
  have hdig : ∀ c ∈ decimalChars (m / 10000), c ≠ ' ' ∧ c ≠ '|' ∧ c ≠ '.' ∧ c ≠ '-' :=
    fun c hc => digit_plain c (decimalChars_digit _ c hc)
  have hfr : ∀ c ∈ [digitChar (m / 1000), digitChar (m / 100), digitChar (m / 10), digitChar m],
      c ≠ ' ' ∧ c ≠ '|' ∧ c ≠ '.' ∧ c ≠ '-' := by
    intro c hc
    simp only [List.mem_cons, List.mem_singleton, List.not_mem_nil, or_false] at hc
    rcases hc with rfl | rfl | rfl | rfl <;> exact digit_plain _ (digitChar_mem _)
  have hhead : (decimalChars (m / 10000)).head? ≠ some '-' := by
    intro hh
    cases hl : decimalChars (m / 10000) with
    | nil => rw [hl] at hh; cases hh
    | cons c cs =>
      rw [hl] at hh
      simp only [List.head?_cons, Option.some.injEq] at hh
      exact (hdig c (by rw [hl]; exact List.mem_cons_self _ _)).2.2.2 hh
  have hval : (((m / 10000 : Nat) : ℚ) + ((m % 10000 : Nat) : ℚ)
      / 10 ^ [digitChar (m / 1000), digitChar (m / 100), digitChar (m / 10), digitChar m].length)
      = (m : ℚ) / 10000 := by
    have hq : (m : ℚ) = 10000 * ((m / 10000 : Nat) : ℚ) + ((m % 10000 : Nat) : ℚ) := by
      exact_mod_cast (Nat.div_add_mod m 10000).symm
    simp only [List.length_cons, List.length_nil]
    rw [hq]
    norm_num
    ring
  by_cases hx : x < 0
  · have hd : fmtF4 x = String.mk ('-' :: (decimalChars (m / 10000) ++ '.' ::
        [digitChar (m / 1000), digitChar (m / 100), digitChar (m / 10), digitChar m])) := by
      simp [fmtF4, hm, hx]
    rw [hd, decimalValue_neg _ _ _ _ (fun h => (hdig _ h).2.2.1 rfl)
      (fun h => (hfr _ h).2.2.1 rfl) (natValue_decimalChars _) (natValue_frac4 _), hval, if_pos hx]
  · have hd : fmtF4 x = String.mk (decimalChars (m / 10000) ++ '.' ::
        [digitChar (m / 1000), digitChar (m / 100), digitChar (m / 10), digitChar m]) := by
      simp [fmtF4, hm, hx]
    rw [hd, decimalValue_pos _ _ _ _ hhead (fun h => (hdig _ h).2.2.1 rfl)
      (fun h => (hfr _ h).2.2.1 rfl) (natValue_decimalChars _) (natValue_frac4 _), hval, if_neg hx]

theorem fmtF4_close (x : ℚ) :
    |(if x < 0 then -1 else 1) * (((roundHalfEven (|x| * 10000) : Nat) : ℚ) / 10000) - x|
      ≤ 1 / 20000 := by
  have herr := roundHalfEven_err (|x| * 10000) (by positivity)
  rw [abs_le] at herr
  obtain ⟨h1, h2⟩ := herr
  generalize ((roundHalfEven (|x| * 10000) : Nat) : ℚ) = m at h1 h2 ⊢
  by_cases hx : x < 0
  · rw [if_pos hx, abs_le]
    rw [abs_of_neg hx] at h1 h2
    constructor <;> linarith
  · rw [if_neg hx, abs_le]
    rw [abs_of_nonneg (not_lt.mp hx)] at h1 h2
    constructor <;> linarith

theorem fmtF4_plain (x : ℚ) : ∀ c ∈ (fmtF4 x).data, c ≠ ' ' ∧ c ≠ '|' := by
  intro c hc
  simp only [fmtF4, List.mem_append, List.mem_cons, List.mem_singleton, List.not_mem_nil,
    or_false] at hc
  rcases hc with ((hs | hd) | rfl) | rfl | rfl | rfl | rfl
  · split_ifs at hs
    · simp only [List.mem_singleton] at hs
      rw [hs]
      decide
    · cases hs
  · exact ⟨(digit_plain c (decimalChars_digit _ c hd)).1,
      (digit_plain c (decimalChars_digit _ c hd)).2.1⟩
  · decide
  all_goals exact ⟨(digit_plain _ (digitChar_mem _)).1, (digit_plain _ (digitChar_mem _)).2.1⟩

theorem decimalChars_plain (n : Nat) : ∀ c ∈ decimalChars n, c ≠ ' ' ∧ c ≠ '|' :=
  fun c hc => ⟨(digit_plain c (decimalChars_digit n c hc)).1,
    (digit_plain c (decimalChars_digit n c hc)).2.1⟩

theorem dropWhile_blanks (k : Nat) (l : List Char) :
    (List.replicate k ' ' ++ l).dropWhile (fun c => c == ' ')
      = l.dropWhile (fun c => c == ' ') := by
  induction k with
  | zero => simp
  | succ k _ => simp [List.replicate_succ]

theorem dropWhile_noblank (l : List Char) (h : ∀ x ∈ l, x ≠ ' ') :
    l.dropWhile (fun c => c == ' ') = l := by
  cases l with
  | nil => rfl
  | cons x l =>
    have hx : x ≠ ' ' := h x (List.mem_cons_self _ _)
    simp [List.dropWhile_cons, hx]

theorem trimBlanks_padded (a b : Nat) (c : List Char) (hc : ∀ x ∈ c, x ≠ ' ') :
    trimBlanks (List.replicate a ' ' ++ c ++ List.replicate b ' ') = c := by
  unfold trimBlanks
  rw [List.append_assoc, dropWhile_blanks]
  cases c with
  | nil =>
    have := dropWhile_blanks b []
    simp only [List.append_nil, List.dropWhile_nil] at this
    simp [this]
  | cons x c =>
    have hx : x ≠ ' ' := hc x (List.mem_cons_self _ _)
    have h1 : (x :: c ++ List.replicate b ' ').dropWhile (fun c => c == ' ')
        = x :: c ++ List.replicate b ' ' := by
      simp [List.dropWhile_cons, hx]
    rw [h1, List.reverse_append, List.reverse_replicate, dropWhile_blanks,
      dropWhile_noblank _ (fun y hy => hc y (List.mem_reverse.mp hy)), List.reverse_reverse]

theorem splitOn_bars (p0 p1 p2 p3 p4 : List Char) (h0 : '|' ∉ p0) (h1 : '|' ∉ p1)
    (h2 : '|' ∉ p2) (h3 : '|' ∉ p3) (h4 : '|' ∉ p4) :
    (p0 ++ '|' :: (p1 ++ '|' :: (p2 ++ '|' :: (p3 ++ '|' :: p4)))).splitOn '|'
      = [p0, p1, p2, p3, p4] := by
  have := List.splitOn_intercalate [p0, p1, p2, p3, p4] '|' (by
    intro l hl
    simp only [List.mem_cons, List.mem_singleton, List.not_mem_nil, or_false] at hl
    rcases hl with rfl | rfl | rfl | rfl | rfl <;> assumption) (by simp)
  simpa [List.intercalate] using this

theorem rowLine_data (n : Nat) (c : String) (it : ℚ) :
    (rowLine n c it).data
      = [] ++ '|' :: ((List.replicate (6 - (decimalChars n).length + 1) ' ' ++ decimalChars n
            ++ List.replicate 1 ' ')
          ++ '|' :: ((List.replicate (21 - c.data.length + 1) ' ' ++ c.data
            ++ List.replicate 1 ' ')
          ++ '|' :: ((List.replicate (21 - (fmtF4 it).data.length + 1) ' ' ++ (fmtF4 it).data
            ++ List.replicate 1 ' ')
          ++ '|' :: ['\n']))) := by
  have l1 : ("| " : String).data = ['|', ' '] := rfl
  have l2 : (" | " : String).data = [' ', '|', ' '] := rfl
  have l3 : (" |\n" : String).data = [' ', '|', '\n'] := rfl
  simp only [rowLine, padLeft, String.data_append, l1, l2, l3, String.length,
    List.replicate_succ, List.append_assoc, List.cons_append, List.nil_append,
    List.replicate_zero, List.singleton_append]

/-- The cells read off a row are the size, the recursive cell and the
iterative time as printed. -/
theorem cellsOfLine_rowLine (n : Nat) (c : String) (it : ℚ)
    (hc : ∀ x ∈ c.data, x ≠ ' ' ∧ x ≠ '|') :
    cellsOfLine (rowLine n c it) = [String.mk (decimalChars n), c, fmtF4 it] := by
  have hb : ∀ (k : Nat) (d : List Char), (∀ x ∈ d, x ≠ ' ' ∧ x ≠ '|') →
      '|' ∉ List.replicate k ' ' ++ d ++ List.replicate 1 ' ' := by
    intro k d hd hm
    simp only [List.mem_append, List.mem_replicate, List.mem_singleton] at hm
    rcases hm with (⟨-, h⟩ | h) | ⟨-, h⟩
    · exact absurd h (by decide)
    · exact (hd _ h).2 rfl
    · exact absurd h (by decide)
  unfold cellsOfLine
  rw [rowLine_data, splitOn_bars _ _ _ _ _ (by simp) (hb _ _ (decimalChars_plain n))
    (hb _ _ hc) (hb _ _ (fmtF4_plain it)) (by decide)]
  simp only [List.tail_cons, List.dropLast, List.map_cons, List.map_nil]
  rw [trimBlanks_padded _ _ _ (fun x hx => (decimalChars_plain n x hx).1),
    trimBlanks_padded _ _ _ (fun x hx => (hc x hx).1),
    trimBlanks_padded _ _ _ (fun x hx => (fmtF4_plain it x hx).1)]

theorem rowLine_length (n : Nat) (c : String) (it : ℚ) :
    (rowLine n c it).length
      = 11 + max 6 (decimalChars n).length + max 21 c.length + max 21 (fmtF4 it).length := by
  rw [String.length, rowLine_data]
  simp only [String.length, List.length_append, List.length_cons, List.length_nil,
    List.length_replicate]
  omega

/-- Fifty nanoseconds print as `0.0001`: the `float64` lies above the tie. -/
theorem fmtF4_fifty : fmtF4 (elapsedMs 0 50) = "0.0001" := by
  have hr : roundHalfEven (|elapsedMs 0 50| * 10000) = 1 := by
    rw [elapsedMs_fifty]
    apply roundHalfEven_eq
    · norm_num [abs_of_pos]
    · norm_num [abs_of_pos]
  have hpos : ¬ elapsedMs 0 50 < 0 := by
    rw [elapsedMs_fifty]
    norm_num
  unfold fmtF4
  simp only [hr, if_neg hpos]
  decide

theorem fmtF4_ne_ERR (x : ℚ) : fmtF4 x ≠ "ERR" := by
  intro h
  have h3 : (fmtF4 x).length = 3 := by rw [h]; decide
  simp [fmtF4, String.length] at h3
  omega

theorem recCell_plain (x : ℚ) : ∀ c ∈ (recCell x).data, c ≠ ' ' ∧ c ≠ '|' := by
  unfold recCell
  split_ifs
  · decide
  · exact fmtF4_plain x

theorem recCell_eq_ERR (x : ℚ) : recCell x = "ERR" ↔ x < 0 := by
  unfold recCell
  split_ifs with h
  · simp [h]
  · simp [h, fmtF4_ne_ERR]

theorem fileRows_eq (recTimes iterTimes : List ℚ) (rest : List Nat) :
    ∀ i, fileRows i rest recTimes iterTimes
      = (List.range rest.length).flatMap (fun j =>
          [rowLine (rest.getD j 0) (recCell (recTimes.getD (i + j) 0)) (iterTimes.getD (i + j) 0),
            separator]) := by
  induction rest with
  | nil => intro i; simp [fileRows]
  | cons n rest ih =>
    intro i
    rw [fileRows, ih (i + 1), List.length_cons, List.range_succ_eq_map, List.flatMap_cons,
      List.flatMap_map]
    simp only [List.getD_cons_zero, List.getD_cons_succ, Nat.add_zero, List.cons_append,
      List.nil_append, List.singleton_append]
    congr 2
    apply List.flatMap_congr
    intro j _
    rw [show i + 1 + j = i + (j + 1) by omega]

theorem plotLoop_eq (recTimes iterTimes : List ℚ) (rest : List Nat) :
    ∀ (i : Nat) (ptsRec ptsIt : List (ℚ × ℚ)),
      i + rest.length ≤ recTimes.length → i + rest.length ≤ iterTimes.length →
      plotLoop i rest recTimes iterTimes ptsRec ptsIt
        = (ptsRec ++ ((rest.zip (recTimes.drop i)).filter (fun p => decide (0 ≤ p.2))).map
              (fun p => ((p.1 : ℚ), p.2)),
           ptsIt ++ (rest.zip (iterTimes.drop i)).map (fun p => ((p.1 : ℚ), p.2))) := by
  induction rest with
  | nil => intro i ptsRec ptsIt _ _; simp [plotLoop]
  | cons n rest ih =>
    intro i ptsRec ptsIt h1 h2
    simp only [List.length_cons] at h1 h2
    have hr : i < recTimes.length := by omega
    have hi : i < iterTimes.length := by omega
    rw [plotLoop, ih (i + 1) _ _ (by omega) (by omega), List.drop_eq_getElem_cons hr,
      List.drop_eq_getElem_cons hi, List.getD_eq_getElem _ _ hr, List.getD_eq_getElem _ _ hi]
    simp only [List.zip_cons_cons, List.map_cons, List.filter_cons]
    by_cases hx : 0 ≤ recTimes[i]
    · simp [hx]
    · simp [hx]

/-- A sweep whose isolated units complete or panic and whose direct units
complete runs to its end, in the state `progress env sizes []`. -/
theorem sweep_contained (env : SweepEnv) (sizes : List Nat)
    (h : ∀ i, i < sizes.length →
      ((env.recCall i).f = UnitResult.completed ∨ (env.recCall i).f = UnitResult.panicked) ∧
        (env.itCall i).f = UnitResult.completed) :
    sweep env sizes = (Status.finished, progress env sizes []) :=
  sweep_finished env sizes (fun j hj => bothReturn_of env j (h j hj).1 (h j hj).2)

theorem progress_recTimes_getD (env : SweepEnv) (sizes : List Nat) (i : Nat)
    (hi : i < sizes.length) : (progress env sizes []).recTimes.getD i 0 = recValue env i :=
  getD_map_range (recValue env) sizes.length _ i hi

theorem progress_iterTimes_getD (env : SweepEnv) (sizes : List Nat) (i : Nat)
    (hi : i < sizes.length) : (progress env sizes []).iterTimes.getD i 0 = itValue env i :=
  getD_map_range (itValue env) sizes.length _ i hi

theorem progress_lengths (env : SweepEnv) (sizes : List Nat) :
    (progress env sizes []).recTimes.length = sizes.length ∧
      (progress env sizes []).iterTimes.length = sizes.length := by
  simp [progress]

theorem length_flatMap_pairLog (n : Nat) :
    ((List.range n).flatMap pairLog).length = n * 2 := by
  induction n with
  | zero => simp
  | succ n ih =>
    simp [List.range_succ, List.flatMap_append, ih, pairLog]
    omega

theorem recValue_sign (env : SweepEnv) (i : Nat)
    (hrec : (env.recCall i).f = UnitResult.completed ∨ (env.recCall i).f = UnitResult.panicked)
    (hclock : ClockOk (env.recCall i)) :
    (recValue env i = -1 ∧ (env.recCall i).f = UnitResult.panicked) ∨
      (0 ≤ recValue env i ∧ (env.recCall i).f = UnitResult.completed) := by
  rcases hrec with h | h
  · right
    rw [recValue_completed env i h]
    exact ⟨elapsedMs_nonneg _ hclock, h⟩
  · left
    exact ⟨recValue_panicked env i h, h⟩

theorem recValue_eq_neg_one_iff (env : SweepEnv) (i : Nat)
    (hrec : (env.recCall i).f = UnitResult.completed ∨ (env.recCall i).f = UnitResult.panicked)
    (hclock : ClockOk (env.recCall i)) :
    recValue env i = -1 ↔ (env.recCall i).f = UnitResult.panicked := by
  rcases recValue_sign env i hrec hclock with ⟨h1, h2⟩ | ⟨h1, h2⟩
  · simp [h1, h2]
  · constructor
    · intro h
      rw [h] at h1
      norm_num at h1
    · intro h
      rw [h2] at h
      cases h

theorem recValue_neg_iff (env : SweepEnv) (i : Nat)
    (hrec : (env.recCall i).f = UnitResult.completed ∨ (env.recCall i).f = UnitResult.panicked)
    (hclock : ClockOk (env.recCall i)) :
    recValue env i < 0 ↔ (env.recCall i).f = UnitResult.panicked := by
  rcases recValue_sign env i hrec hclock with ⟨h1, h2⟩ | ⟨h1, h2⟩
  · simp [h1, h2]
  · constructor
    · intro h
      exact absurd h (not_lt.mpr h1)
    · intro h
      rw [h2] at h
      cases h

theorem recTimes_values (env : SweepEnv) (sizes : List Nat)
    (hrec : ∀ i, i < sizes.length →
      (env.recCall i).f = UnitResult.completed ∨ (env.recCall i).f = UnitResult.panicked)
    (hclock : ∀ i, i < sizes.length → ClockOk (env.recCall i)) :
    ∀ v ∈ (progress env sizes []).recTimes, v = -1 ∨ 0 ≤ v := by
  intro v hv
  simp only [progress, List.length_nil, List.replicate_zero, List.append_nil, List.mem_map,
    List.mem_range] at hv
  obtain ⟨i, hi, rfl⟩ := hv
  rcases recValue_sign env i (hrec i hi) (hclock i hi) with ⟨h, -⟩ | ⟨h, -⟩
  · exact Or.inl h
  · exact Or.inr h

/-- A sweep whose direct unit faults at index `k`, after `k` iterations that
went through, stops there in the state reached after those `k` iterations,
with both invocations of iteration `k` logged. -/
theorem sweepLoop_abort (env : SweepEnv) (done : List Nat) (n : Nat) (todo : List Nat)
    (hbefore : ∀ i, i < done.length → BothReturn env i)
    (hrec : ∃ v, measureTime (env.recCall done.length) true = Outcome.returned v)
    (hit : ∀ v, measureTime (env.itCall done.length) false ≠ Outcome.returned v) :
    sweep env (done ++ n :: todo)
      = (Status.aborted (measureTime (env.itCall done.length) false),
          { progress env done (n :: todo) with
            log := (progress env done (n :: todo)).log ++ pairLog done.length }) := by
  have h := sweepLoop_append env done [] (n :: todo)
    (fun j _ h2 => hbefore j (by simpa using h2))
  simp only [List.nil_append, List.length_nil] at h
  rw [sweep, progress_init env, h]
  obtain ⟨v, hv⟩ := hrec
  rw [sweepLoop]
  simp only [invoke, SweepEnv.unit, hv]
  cases ho : measureTime (env.itCall done.length) false with
  | returned w => exact absurd ho (hit w)
  | panics => simp [pairLog]
  | crashed => simp [pairLog]
  | blocked => simp [pairLog]

/-! ## `generateRandomText`: lemmas -/

theorem letters_length : letters.length = 63 := by decide

theorem letters_inAlphabet : ∀ c ∈ letters, inAlphabet c = true := by decide

theorem fillLoop_spec (rnd : Nat → Nat) (length : Nat) (hr : ∀ i, rnd i < letters.length) :
    ∀ (remaining : Nat) (b : List Nat), remaining ≤ length → b.length = length →
      (∀ j, j < length - remaining → b.getD j 0 ∈ letters) →
      ∃ out, fillLoop rnd length remaining b = some out ∧ out.length = length ∧
        ∀ c ∈ out, c ∈ letters := by
  intro remaining
  induction remaining with
  | zero =>
    intro b _ hlen hb
    refine ⟨b, rfl, hlen, ?_⟩
    intro c hc
    obtain ⟨j, hj, rfl⟩ := List.getElem_of_mem hc
    have := hb j (by omega)
    rwa [List.getD_eq_getElem b 0 hj] at this
  | succ r ih =>
    intro b hle hlen hb
    have hget : letters.get? (rnd (length - (r + 1)))
        = some (letters.get ⟨rnd (length - (r + 1)), hr _⟩) := List.get?_eq_get (hr _)
    rw [fillLoop]
    simp only [hget]
    apply ih _ (by omega) (by simpa using hlen)
    intro j hj
    by_cases hji : j = length - (r + 1)
    · subst hji
      rw [List.getD_eq_getElem _ 0 (by simp; omega)]
      simp [List.get_mem]
    · rw [List.getD_eq_getElem _ 0 (by simp; omega), List.getElem_set_ne (by omega)]
      have := hb j (by omega)
      rwa [List.getD_eq_getElem b 0 (by omega)] at this

/-! ## Main results -/

/-- C1: under a monotonic clock, `measureTime(f, true)` returns `-1` exactly
when `f` panicked; when `f` completes it returns the `float64` quotient of the
completion reading minus the start reading by `1e6`, which is not negative, is
that difference in milliseconds up to a `2^51`-th of it and has at most 53
significant bits; so a unit that completes or panics yields exactly one of an
elapsed time and the marker. -/
theorem measureTime_isolated_outcome (c : Call) (hclock : ClockOk c) :
    (measureTime c true = Outcome.returned (-1) ↔ c.f = UnitResult.panicked) ∧
    (c.f = UnitResult.completed →
      ∃ v, measureTime c true = Outcome.returned v ∧ 0 ≤ v ∧
        v = float64Div (float64OfInt (c.fin - c.start)) 1000000 ∧
        |v - ((c.fin - c.start : Int) : ℚ) / 1000000|
          ≤ ((c.fin - c.start : Int) : ℚ) / 1000000 / 2 ^ 51 ∧
        ∃ m : ℕ, ∃ k : ℤ, m ≤ 2 ^ 53 ∧ v = (m : ℚ) * (2 : ℚ) ^ k) ∧
    (c.f = UnitResult.completed ∨ c.f = UnitResult.panicked →
      ∃ v, measureTime c true = Outcome.returned v ∧
        ((v = -1 ∧ c.f = UnitResult.panicked) ∨ (0 ≤ v ∧ c.f = UnitResult.completed)) ∧
        ¬ (v = -1 ∧ 0 ≤ v)) := by
  have hnn := elapsedMs_nonneg c hclock
  refine ⟨?_, ?_, ?_⟩
  · constructor
    · intro h
      cases hf : c.f with
      | completed =>
        rw [measureTime_completed c hf] at h
        injection h with h
        rw [h] at hnn
        norm_num at hnn
      | panicked => rfl
      | fatal => rw [measureTime_fatal c hf] at h; cases h
      | hangs => rw [measureTime_hangs c hf] at h; cases h
    · intro h
      exact measureTime_panicked c h
  · intro hf
    exact ⟨elapsedMs c.start c.fin, measureTime_completed c hf true, hnn,
      elapsedMs_of_clock c hclock, elapsedMs_close c hclock, elapsedMs_repr c hclock⟩
  · intro hf
    rcases hf with hf | hf
    · refine ⟨elapsedMs c.start c.fin, measureTime_completed c hf true, Or.inr ⟨hnn, hf⟩, ?_⟩
      rintro ⟨h1, -⟩
      rw [h1] at hnn
      norm_num at hnn
    · refine ⟨-1, measureTime_panicked c hf, Or.inl ⟨rfl, hf⟩, ?_⟩
      rintro ⟨-, h2⟩
      norm_num at h2

/-- C1, at a unit that completes 2.5 ms after the start reading. -/
theorem measureTime_isolated_outcome_witness :
    (measureTime { f := UnitResult.completed, start := 1000, fin := 2501000 } true
        = Outcome.returned (-1) ↔ UnitResult.completed = UnitResult.panicked) ∧
    measureTime { f := UnitResult.completed, start := 1000, fin := 2501000 } true
        = Outcome.returned (5 / 2) := by
  have h := measureTime_isolated_outcome
    { f := UnitResult.completed, start := 1000, fin := 2501000 }
    ⟨by decide, by decide, by decide⟩
  refine ⟨h.1, ?_⟩
  obtain ⟨v, hv, -, hval, -, -⟩ := h.2.1 rfl
  rw [hv, hval, float64Div, float64OfInt]
  have e1 : roundBinary64 (((2501000 - 1000 : Int) : ℚ)) = 2500000 := by
    have := roundBinary64_exact 2500000 21 (2500000 * 2 ^ 31) (by norm_num) (by norm_num)
      (by norm_num) (by norm_num)
    simpa using this
  have e2 : roundBinary64 ((2500000 : ℚ) / 1000000) = 5 / 2 := by
    have := roundBinary64_exact (5 / 2) 1 (5 * 2 ^ 50) (by norm_num) (by norm_num)
      (by norm_num) (by norm_num)
    rw [show (2500000 : ℚ) / 1000000 = 5 / 2 by norm_num]
    exact this
  simp only [] at e1 ⊢
  rw [e1, e2]

/-- C2: a text of five bytes on a goroutine stack with room for four frames of
the recursion: the unit ends in the runtime's fatal stack overflow, which
`recover()` does not see, so `measureTime(unit, true)` does not return `-1`:
the process is killed. -/
theorem measureTime_stack_overflow_crashes :
    recursiveUnit 4 [65, 98, 67, 100, 69] = UnitResult.fatal ∧
    measureTime { f := recursiveUnit 4 [65, 98, 67, 100, 69], start := 0, fin := 5 } true
      = Outcome.crashed ∧
    measureTime { f := recursiveUnit 4 [65, 98, 67, 100, 69], start := 0, fin := 5 } true
      ≠ Outcome.returned (-1) := by
  decide

/-- C8: a text of five bytes on a goroutine stack with room for four frames of
the recursion: the unit faults by exhausting the stack, and the goroutine
hands no value over the channel at any point of the run, the caller never
gets past `<-ch`, and `measureTime` does not return: the process is killed. -/
theorem isolated_handoff_lost_on_stack_overflow :
    recursiveUnit 4 [65, 98, 67, 100, 69] = UnitResult.fatal ∧
    (∀ n, (run { f := recursiveUnit 4 [65, 98, 67, 100, 69], start := 0, fin := 5 } n
        Config.init).delivered = []) ∧
    (∀ n, (run { f := recursiveUnit 4 [65, 98, 67, 100, 69], start := 0, fin := 5 } n
        Config.init).caller = CallerPC.recv) ∧
    (∀ v, measureTime { f := recursiveUnit 4 [65, 98, 67, 100, 69], start := 0, fin := 5 } true
        ≠ Outcome.returned v) := by
  have hf : recursiveUnit 4 [65, 98, 67, 100, 69] = UnitResult.fatal := by decide
  have hrun : ∀ n, run { f := recursiveUnit 4 [65, 98, 67, 100, 69], start := 0, fin := 5 } n
      Config.init = Config.init ∨
      run { f := recursiveUnit 4 [65, 98, 67, 100, 69], start := 0, fin := 5 } n Config.init
        = { Config.init with crashed := true } := by
    intro n
    cases n with
    | zero => left; rfl
    | succ n => right; exact run_fatal _ hf n
  refine ⟨hf, ?_, ?_, ?_⟩
  · intro n
    rcases hrun n with h | h <;> rw [h] <;> rfl
  · intro n
    rcases hrun n with h | h <;> rw [h] <;> rfl
  · intro v
    rw [measureTime_fatal _ hf]
    exact fun h => Outcome.noConfusion h

/-- C9: for every byte sequence the recursive count over bytes equals the
iterative count over decoded runes, and both equal the number of positions
that hold one of the letters A to Z; on a stack with room for `len(s) + 1`
frames the recursion returns that number. -/
theorem counting_strategies_agree (s : GoString) :
    countCapitalRecursive s 0 = countCapitalIterative s ∧
    countCapitalIterative s = capitalPositions s ∧
    countCapitalRecursiveOnStack (s.length + 1) s 0 = some (capitalPositions s) := by
  have hr : countCapitalRecursive s 0 = capitalPositions s := by
    rw [countCapitalRecursive_eq_drop, List.drop_zero, countP_isCapital, capitalPositions]
  have hi : countCapitalIterative s = capitalPositions s := by
    rw [countCapitalIterative, rangeLoop_eq s s.length 0 0 (by omega), List.drop_zero,
      Nat.zero_add, countP_isCapital, capitalPositions]
  refine ⟨by rw [hr, hi], hi, ?_⟩
  rw [countCapitalRecursiveOnStack_eq (s.length + 1) s 0 (by omega), hr]

/-- C10: for a length `n >= 0` and a random source whose every draw is below
`len(letters)`, `generateRandomText(n)` does not panic and returns exactly `n`
bytes, each a member of the 63-character alphabet a-z, A-Z, 0-9, space. -/
theorem generateRandomText_length_alphabet (rnd : Nat → Nat) (n : Int) (hn : 0 ≤ n)
    (hr : ∀ i, rnd i < letters.length) :
    letters.length = 63 ∧
    ∃ out, generateRandomText rnd n = some out ∧ (out.length : Int) = n ∧
      ∀ c ∈ out, c ∈ letters ∧ inAlphabet c = true := by
  refine ⟨letters_length, ?_⟩
  obtain ⟨out, h1, h2, h3⟩ := fillLoop_spec rnd n.toNat hr n.toNat
    (List.replicate n.toNat 0) (le_refl _) (by simp) (by intro j hj; omega)
  refine ⟨out, ?_, ?_, fun c hc => ⟨h3 c hc, letters_inAlphabet c (h3 c hc)⟩⟩
  · rw [generateRandomText, if_neg (by omega), h1]
  · rw [h2]; omega

/-- C10, at length 3 with the draws 0, 27, 62. -/
theorem generateRandomText_length_alphabet_witness :
    letters.length = 63 ∧
    ∃ out, generateRandomText (fun i => (i * 27 + i * (i - 1) * 4) % 63) 3 = some out ∧
      (out.length : Int) = 3 ∧ ∀ c ∈ out, c ∈ letters ∧ inAlphabet c = true :=
  generateRandomText_length_alphabet (fun i => (i * 27 + i * (i - 1) * 4) % 63) 3
    (by decide) (fun i => by rw [letters_length]; exact Nat.mod_lt _ (by decide))

/-- C4: when every isolated unit completes or panics and every direct unit
completes, the sweep runs to its end and the invocations of `measureTime`
that it made are exactly `|sizes| * 2`: for each index in the order of
`sizes`, the recursive closure isolated and then the iterative closure not
isolated, each once; `recTimes` and `iterTimes` have one entry per size, and
entry `i` is what the measurement at `sizes[i]` returned. -/
theorem sweep_records_each_pair_once (env : SweepEnv) (sizes : List Nat)
    (h : ∀ i, i < sizes.length →
      ((env.recCall i).f = UnitResult.completed ∨ (env.recCall i).f = UnitResult.panicked) ∧
        (env.itCall i).f = UnitResult.completed) :
    ∃ st, sweep env sizes = (Status.finished, st) ∧
      st.log = (List.range sizes.length).flatMap pairLog ∧
      st.log.length = sizes.length * 2 ∧
      st.recTimes.length = sizes.length ∧ st.iterTimes.length = sizes.length ∧
      ∀ i, i < sizes.length →
        measureTime (env.recCall i) true = Outcome.returned (st.recTimes.getD i 0) ∧
        measureTime (env.itCall i) false = Outcome.returned (st.iterTimes.getD i 0) := by
  refine ⟨progress env sizes [], sweep_contained env sizes h, rfl, ?_,
    (progress_lengths env sizes).1, (progress_lengths env sizes).2, ?_⟩
  · exact length_flatMap_pairLog sizes.length
  · intro i hi
    rw [progress_recTimes_getD env sizes i hi, progress_iterTimes_getD env sizes i hi,
      itValue_completed env i (h i hi).2]
    refine ⟨?_, measureTime_completed _ (h i hi).2 false⟩
    rcases (h i hi).1 with hc | hp
    · rw [recValue_completed env i hc]
      exact measureTime_completed _ hc true
    · rw [recValue_panicked env i hp]
      exact measureTime_panicked _ hp

/-- C4, at two sizes where the recursive unit panics at the second. -/
theorem sweep_records_each_pair_once_witness :
    ∃ st, sweep { recCall := fun i => { f := if i = 1 then UnitResult.panicked
                                             else UnitResult.completed,
                                        start := 0, fin := 1500000 },
                  itCall := fun _ => { f := UnitResult.completed, start := 0, fin := 250000 } }
            [10, 20] = (Status.finished, st) ∧
      st.log = (List.range 2).flatMap pairLog ∧ st.log.length = 2 * 2 ∧
      st.recTimes.length = 2 ∧ st.iterTimes.length = 2 := by
  obtain ⟨st, h1, h2, h3, h4, h5, -⟩ := sweep_records_each_pair_once
    { recCall := fun i => { f := if i = 1 then UnitResult.panicked else UnitResult.completed,
                            start := 0, fin := 1500000 },
      itCall := fun _ => { f := UnitResult.completed, start := 0, fin := 250000 } }
    [10, 20]
    (fun i _ => ⟨by by_cases hi : i = 1 <;> simp [hi], rfl⟩)
  exact ⟨st, h1, h2, h3, h4, h5⟩

/-- C5: if the isolated unit panics exactly at the positions in `F` and
completes elsewhere, the direct unit always completes and the clock is
monotonic, then the sweep runs to its end, `recTimes[i]` is `-1` exactly at
the positions in `F` and not negative elsewhere, and `iterTimes[i]` is not
negative at every position. -/
theorem sweep_failure_isolation (env : SweepEnv) (sizes : List Nat) (F : Nat → Prop)
    (hF : ∀ i, i < sizes.length →
      (F i → (env.recCall i).f = UnitResult.panicked) ∧
        (¬ F i → (env.recCall i).f = UnitResult.completed))
    (hit : ∀ i, i < sizes.length → (env.itCall i).f = UnitResult.completed)
    (hclock : ∀ i, i < sizes.length → ClockOk (env.recCall i) ∧ ClockOk (env.itCall i)) :
    ∃ st, sweep env sizes = (Status.finished, st) ∧
      st.recTimes.length = sizes.length ∧ st.iterTimes.length = sizes.length ∧
      ∀ i, i < sizes.length →
        (st.recTimes.getD i 0 = -1 ↔ F i) ∧ (¬ F i → 0 ≤ st.recTimes.getD i 0) ∧
          0 ≤ st.iterTimes.getD i 0 := by
  have hrec : ∀ i, i < sizes.length →
      (env.recCall i).f = UnitResult.completed ∨ (env.recCall i).f = UnitResult.panicked := by
    intro i hi
    by_cases hfi : F i
    · exact Or.inr ((hF i hi).1 hfi)
    · exact Or.inl ((hF i hi).2 hfi)
  refine ⟨progress env sizes [],
    sweep_contained env sizes (fun i hi => ⟨hrec i hi, hit i hi⟩),
    (progress_lengths env sizes).1, (progress_lengths env sizes).2, ?_⟩
  intro i hi
  rw [progress_recTimes_getD env sizes i hi, progress_iterTimes_getD env sizes i hi,
    itValue_completed env i (hit i hi)]
  refine ⟨?_, ?_, elapsedMs_nonneg _ (hclock i hi).2⟩
  · rw [recValue_eq_neg_one_iff env i (hrec i hi) (hclock i hi).1]
    constructor
    · intro hp
      by_contra hfi
      rw [(hF i hi).2 hfi] at hp
      cases hp
    · exact (hF i hi).1
  · intro hfi
    rw [recValue_completed env i ((hF i hi).2 hfi)]
    exact elapsedMs_nonneg _ (hclock i hi).1

/-- C5, at three sizes with a panic at the middle one. -/
theorem sweep_failure_isolation_witness :
    ∃ st, sweep { recCall := fun i => { f := if i = 1 then UnitResult.panicked
                                             else UnitResult.completed,
                                        start := 5, fin := 1500005 },
                  itCall := fun _ => { f := UnitResult.completed, start := 7, fin := 250007 } }
            [10, 20, 30] = (Status.finished, st) ∧
      st.recTimes.length = 3 ∧ st.iterTimes.length = 3 ∧
      ∀ i, i < 3 →
        (st.recTimes.getD i 0 = -1 ↔ i = 1) ∧ (¬ i = 1 → 0 ≤ st.recTimes.getD i 0) ∧
          0 ≤ st.iterTimes.getD i 0 :=
  sweep_failure_isolation
    { recCall := fun i => { f := if i = 1 then UnitResult.panicked else UnitResult.completed,
                            start := 5, fin := 1500005 },
      itCall := fun _ => { f := UnitResult.completed, start := 7, fin := 250007 } }
    [10, 20, 30] (fun i => i = 1)
    (fun i _ => ⟨fun hi => by simp [hi], fun hi => by simp [hi]⟩)
    (fun _ _ => rfl)
    (fun _ _ => ⟨⟨by norm_num, by norm_num, by norm_num⟩,
      ⟨by norm_num, by norm_num, by norm_num⟩⟩)

/-- C3: a unit that panics or dies under `measureTime(f, false)` hands no
value back, the panic reaching the caller as it is; and a sweep whose direct
unit does so at index `k`, the earlier iterations having gone through, ends
there: `recTimes` and `iterTimes` hold the values of the first `k` sizes and
the zeros they were made with from `k` on, the console has the rows of the
first `k` sizes only, and no measurement of a later size is attempted. -/
theorem direct_fault_aborts_sweep (env : SweepEnv) (sizes : List Nat) (k : Nat)
    (hk : k < sizes.length)
    (hbefore : ∀ i, i < k →
      ((env.recCall i).f = UnitResult.completed ∨ (env.recCall i).f = UnitResult.panicked) ∧
        (env.itCall i).f = UnitResult.completed)
    (hrec : (env.recCall k).f = UnitResult.completed ∨ (env.recCall k).f = UnitResult.panicked)
    (hit : (env.itCall k).f = UnitResult.panicked ∨ (env.itCall k).f = UnitResult.fatal) :
    (∀ v, measureTime (env.itCall k) false ≠ Outcome.returned v) ∧
    ((env.itCall k).f = UnitResult.panicked →
      measureTime (env.itCall k) false = Outcome.panics) ∧
    ∃ st, sweep env sizes = (Status.aborted (measureTime (env.itCall k) false), st) ∧
      st.recTimes = (List.range k).map (recValue env) ++ List.replicate (sizes.length - k) 0 ∧
      st.iterTimes = (List.range k).map (itValue env) ++ List.replicate (sizes.length - k) 0 ∧
      st.console = header ++ (List.range k).flatMap (rowOf env sizes) ∧
      st.log = (List.range k).flatMap pairLog ++ pairLog k ∧
      ∀ j, k ≤ j → st.recTimes.getD j 0 = 0 ∧ st.iterTimes.getD j 0 = 0 := by
  have hno : ∀ v, measureTime (env.itCall k) false ≠ Outcome.returned v := by
    intro v hv
    rcases hit with h | h
    · simp [measureTime, h] at hv
    · simp [measureTime, h] at hv
  refine ⟨hno, fun h => by simp [measureTime, h], ?_⟩
  obtain ⟨done, n, todo, rfl, rfl⟩ : ∃ done n todo, sizes = done ++ n :: todo ∧
      done.length = k := by
    refine ⟨sizes.take k, sizes[k], sizes.drop (k + 1), ?_, ?_⟩
    · rw [← List.drop_eq_getElem_cons hk, List.take_append_drop]
    · simp; omega
  have hrec1 : ∃ v, measureTime (env.recCall done.length) true = Outcome.returned v := by
    rcases hrec with h | h
    · exact ⟨_, measureTime_completed _ h true⟩
    · exact ⟨_, measureTime_panicked _ h⟩
  refine ⟨_, sweepLoop_abort env done n todo
    (fun i hi => bothReturn_of env i (hbefore i hi).1 (hbefore i hi).2) hrec1 hno, ?_, ?_, ?_, rfl,
    ?_⟩
  · simp [progress]
  · simp [progress]
  · simp only [progress]
    congr 1
    apply List.flatMap_congr
    intro i hi
    simp only [rowOf]
    rw [List.getD_append _ _ _ _ (by simpa using hi)]
  · intro j hj
    exact ⟨getD_map_range_zero _ _ _ _ hj, getD_map_range_zero _ _ _ _ hj⟩

/-- C3, at three sizes where the direct unit panics at the second. -/
theorem direct_fault_aborts_sweep_witness :
    ∃ st, sweep { recCall := fun _ => { f := UnitResult.completed, start := 0, fin := 3000000 },
                  itCall := fun i => { f := if i = 1 then UnitResult.panicked
                                            else UnitResult.completed,
                                       start := 0, fin := 1000000 } }
            [10, 20, 30] = (Status.aborted Outcome.panics, st) ∧
      st.recTimes = [3, 0, 0] ∧ st.iterTimes = [1, 0, 0] ∧
      st.log = pairLog 0 ++ pairLog 1 ∧
      st.console = header ++ [rowLine 10 (recCell 3) 1, separator] := by
  obtain ⟨-, hp, st, h1, h2, h3, h4, h5, -⟩ := direct_fault_aborts_sweep
    { recCall := fun _ => { f := UnitResult.completed, start := 0, fin := 3000000 },
      itCall := fun i => { f := if i = 1 then UnitResult.panicked else UnitResult.completed,
                           start := 0, fin := 1000000 } }
    [10, 20, 30] 1 (by decide)
    (fun i hi => ⟨Or.inl rfl, by simp [Nat.ne_of_lt hi]⟩) (Or.inl rfl) (Or.inl rfl)
  have hz3 : elapsedMs 0 3000000 = 3 := by
    rw [elapsedMs, subMono_eq _ _ (by norm_num) (by norm_num) (by norm_num), float64Div,
      float64OfInt]
    have e1 := roundBinary64_exact 3000000 21 (3000000 * 2 ^ 31) (by norm_num) (by norm_num)
      (by norm_num) (by norm_num)
    have e2 := roundBinary64_exact 3 1 (3 * 2 ^ 51) (by norm_num) (by norm_num)
      (by norm_num) (by norm_num)
    norm_num [e1, e2]
  have hz1 : elapsedMs 0 1000000 = 1 := by
    rw [elapsedMs, subMono_eq _ _ (by norm_num) (by norm_num) (by norm_num), float64Div,
      float64OfInt]
    have e1 := roundBinary64_exact 1000000 19 (1000000 * 2 ^ 33) (by norm_num) (by norm_num)
      (by norm_num) (by norm_num)
    have e2 := roundBinary64_exact 1 0 (2 ^ 52) (by norm_num) (by norm_num)
      (by norm_num) (by norm_num)
    norm_num [e1, e2]
  refine ⟨st, ?_, ?_, ?_, ?_, ?_⟩
  · rw [h1, hp rfl]
  · rw [h2]
    simp [List.range_succ, List.replicate_succ, recValue, measureTime_completed, hz3]
  · rw [h3]
    simp [List.range_succ, List.replicate_succ, itValue, measureTime_completed, hz1]
  · rw [h5]
    simp [List.range_succ]
  · rw [h4]
    simp [List.range_succ, rowOf, recValue, itValue, measureTime_completed, hz3, hz1]

/-- C6: after a sweep whose isolated units complete or panic under a monotonic
clock and whose direct units complete, `ptsRec` is, in order, the pairs
`(sizes[i], recTimes[i])` whose entry is not the failure marker `-1`, an entry
being `-1` exactly when that unit panicked; no point of `ptsRec` has `-1` or a
negative ordinate; and `ptsIt` has one point for every size. -/
theorem plot_series_omit_failed (env : SweepEnv) (sizes : List Nat)
    (hrec : ∀ i, i < sizes.length →
      (env.recCall i).f = UnitResult.completed ∨ (env.recCall i).f = UnitResult.panicked)
    (hit : ∀ i, i < sizes.length → (env.itCall i).f = UnitResult.completed)
    (hclock : ∀ i, i < sizes.length → ClockOk (env.recCall i)) :
    ∃ st, sweep env sizes = (Status.finished, st) ∧
      (plotPoints sizes st.recTimes st.iterTimes).1
        = ((sizes.zip st.recTimes).filter (fun p => decide (p.2 ≠ -1))).map
            (fun p => ((p.1 : ℚ), p.2)) ∧
      (plotPoints sizes st.recTimes st.iterTimes).2
        = (sizes.zip st.iterTimes).map (fun p => ((p.1 : ℚ), p.2)) ∧
      (plotPoints sizes st.recTimes st.iterTimes).2.length = sizes.length ∧
      (∀ i, i < sizes.length →
        (st.recTimes.getD i 0 = -1 ↔ (env.recCall i).f = UnitResult.panicked)) ∧
      ∀ p ∈ (plotPoints sizes st.recTimes st.iterTimes).1, p.2 ≠ -1 ∧ 0 ≤ p.2 := by
  have hl := progress_lengths env sizes
  have hvals := recTimes_values env sizes hrec hclock
  have hplot := plotLoop_eq (progress env sizes []).recTimes (progress env sizes []).iterTimes
    sizes 0 [] [] (by omega) (by omega)
  simp only [List.drop_zero, List.nil_append] at hplot
  have hfilter : (sizes.zip (progress env sizes []).recTimes).filter (fun p => decide (0 ≤ p.2))
      = (sizes.zip (progress env sizes []).recTimes).filter (fun p => decide (p.2 ≠ -1)) := by
    apply List.filter_congr
    intro p hp
    have hv := hvals p.2 (List.of_mem_zip hp).2
    rcases hv with hv | hv
    · simp [hv]
    · have hne : p.2 ≠ -1 := by
        intro h
        rw [h] at hv
        norm_num at hv
      simp [hv, hne]
  refine ⟨progress env sizes [],
    sweep_contained env sizes (fun i hi => ⟨hrec i hi, hit i hi⟩), ?_, ?_, ?_, ?_, ?_⟩
  · rw [plotPoints, hplot, hfilter]
  · rw [plotPoints, hplot]
  · rw [plotPoints, hplot]
    simp [hl.2]
  · intro i hi
    rw [progress_recTimes_getD env sizes i hi]
    exact recValue_eq_neg_one_iff env i (hrec i hi) (hclock i hi)
  · intro p hp
    rw [plotPoints, hplot] at hp
    simp only [List.mem_map, List.mem_filter, decide_eq_true_eq] at hp
    obtain ⟨q, ⟨-, hq⟩, rfl⟩ := hp
    refine ⟨?_, hq⟩
    intro h
    simp only at h
    rw [h] at hq
    norm_num at hq

/-- C6, at three sizes with a panic at the middle one. -/
theorem plot_series_omit_failed_witness :
    ∃ st, sweep { recCall := fun i => { f := if i = 1 then UnitResult.panicked
                                             else UnitResult.completed,
                                        start := 5, fin := 1500005 },
                  itCall := fun _ => { f := UnitResult.completed, start := 7, fin := 250007 } }
            [10, 20, 30] = (Status.finished, st) ∧
      (plotPoints [10, 20, 30] st.recTimes st.iterTimes).1
        = ((([10, 20, 30] : List Nat).zip st.recTimes).filter (fun p => decide (p.2 ≠ -1))).map
            (fun p => ((p.1 : ℚ), p.2)) ∧
      (plotPoints [10, 20, 30] st.recTimes st.iterTimes).2.length = 3 := by
  obtain ⟨st, h1, h2, -, h4, -, -⟩ := plot_series_omit_failed
    { recCall := fun i => { f := if i = 1 then UnitResult.panicked else UnitResult.completed,
                            start := 5, fin := 1500005 },
      itCall := fun _ => { f := UnitResult.completed, start := 7, fin := 250007 } }
    [10, 20, 30]
    (fun i _ => by by_cases hi : i = 1 <;> simp [hi])
    (fun _ _ => rfl)
    (fun _ _ => ⟨by norm_num, by norm_num, by norm_num⟩)
  exact ⟨st, h1, h2, h4⟩

/-- C7: after such a sweep the console holds the header and then, size by
size, one row and its rule; the cells between the bars of the row for
`sizes[i]`, each right-aligned in its field of 6, 21 and 21 columns, are
three: the size in decimal, the recursive cell, which is
`"ERR"` exactly when that unit panicked and otherwise a decimal text that
denotes the measured milliseconds to the nearest ten-thousandth, and the
iterative time printed likewise; and the file holds the same lines, then the
note. -/
theorem table_rows_err_iff_failed (env : SweepEnv) (sizes : List Nat)
    (hrec : ∀ i, i < sizes.length →
      (env.recCall i).f = UnitResult.completed ∨ (env.recCall i).f = UnitResult.panicked)
    (hit : ∀ i, i < sizes.length → (env.itCall i).f = UnitResult.completed)
    (hclock : ∀ i, i < sizes.length → ClockOk (env.recCall i)) :
    ∃ st, sweep env sizes = (Status.finished, st) ∧
      st.console = header ++ (List.range sizes.length).flatMap (fun i =>
        [rowLine (sizes.getD i 0) (recCell (st.recTimes.getD i 0)) (st.iterTimes.getD i 0),
          separator]) ∧
      (∀ i, i < sizes.length → ∃ nCell rCell iCell,
        cellsOfLine (rowLine (sizes.getD i 0) (recCell (st.recTimes.getD i 0))
            (st.iterTimes.getD i 0)) = [nCell, rCell, iCell] ∧
        natValue nCell.data = some (sizes.getD i 0) ∧
        (rowLine (sizes.getD i 0) (recCell (st.recTimes.getD i 0))
            (st.iterTimes.getD i 0)).length
          = 11 + max 6 nCell.length + max 21 rCell.length + max 21 iCell.length ∧
        (rCell = "ERR" ↔ (env.recCall i).f = UnitResult.panicked) ∧
        ((env.recCall i).f = UnitResult.completed →
          ∃ q, decimalValue rCell = some q ∧ |q - st.recTimes.getD i 0| ≤ 1 / 20000 ∧
            |st.recTimes.getD i 0
                - (((env.recCall i).fin - (env.recCall i).start : Int) : ℚ) / 1000000|
              ≤ (((env.recCall i).fin - (env.recCall i).start : Int) : ℚ) / 1000000 / 2 ^ 51) ∧
        ∃ q, decimalValue iCell = some q ∧ |q - st.iterTimes.getD i 0| ≤ 1 / 20000) ∧
      fileTable sizes st.recTimes st.iterTimes = st.console ++ [footer] := by
  have hcons : (progress env sizes []).console
      = header ++ (List.range sizes.length).flatMap (fun i =>
        [rowLine (sizes.getD i 0) (recCell ((progress env sizes []).recTimes.getD i 0))
          ((progress env sizes []).iterTimes.getD i 0), separator]) := by
    simp only [progress]
    congr 1
    apply List.flatMap_congr
    intro i hi
    have hi1 : i < sizes.length := by simpa using hi
    have h1 := progress_recTimes_getD env sizes i hi1
    have h2 := progress_iterTimes_getD env sizes i hi1
    simp only [progress] at h1 h2
    rw [h1, h2, rowOf]
  refine ⟨progress env sizes [],
    sweep_contained env sizes (fun i hi => ⟨hrec i hi, hit i hi⟩), hcons, ?_, ?_⟩
  · intro i hi
    refine ⟨String.mk (decimalChars (sizes.getD i 0)),
      recCell ((progress env sizes []).recTimes.getD i 0),
      fmtF4 ((progress env sizes []).iterTimes.getD i 0),
      cellsOfLine_rowLine _ _ _ (recCell_plain _), natValue_decimalChars _,
      rowLine_length _ _ _, ?_, ?_, ⟨_, decimalValue_fmtF4 _, fmtF4_close _⟩⟩
    · rw [progress_recTimes_getD env sizes i hi, recCell_eq_ERR]
      exact recValue_neg_iff env i (hrec i hi) (hclock i hi)
    · intro hc
      rw [progress_recTimes_getD env sizes i hi, recValue_completed env i hc, recCell,
        if_neg (not_lt.mpr (elapsedMs_nonneg _ (hclock i hi)))]
      exact ⟨_, decimalValue_fmtF4 _, fmtF4_close _, elapsedMs_close _ (hclock i hi)⟩
  · rw [fileTable, fileRows_eq, hcons]
    simp

/-- C7, at three sizes with a panic at the middle one. -/
theorem table_rows_err_iff_failed_witness :
    ∃ st, sweep { recCall := fun i => { f := if i = 1 then UnitResult.panicked
                                             else UnitResult.completed,
                                        start := 5, fin := 1500005 },
                  itCall := fun _ => { f := UnitResult.completed, start := 7, fin := 250007 } }
            [10, 20, 30] = (Status.finished, st) ∧
      (∀ i, i < 3 → ∃ nCell rCell iCell,
        cellsOfLine (rowLine (([10, 20, 30] : List Nat).getD i 0)
            (recCell (st.recTimes.getD i 0)) (st.iterTimes.getD i 0)) = [nCell, rCell, iCell] ∧
        natValue nCell.data = some (([10, 20, 30] : List Nat).getD i 0) ∧
        (rCell = "ERR" ↔ i = 1)) ∧
      fileTable [10, 20, 30] st.recTimes st.iterTimes = st.console ++ [footer] := by
  obtain ⟨st, h1, -, h3, h4⟩ := table_rows_err_iff_failed
    { recCall := fun i => { f := if i = 1 then UnitResult.panicked else UnitResult.completed,
                            start := 5, fin := 1500005 },
      itCall := fun _ => { f := UnitResult.completed, start := 7, fin := 250007 } }
    [10, 20, 30]
    (fun i _ => by by_cases hi : i = 1 <;> simp [hi])
    (fun _ _ => rfl)
    (fun _ _ => ⟨by norm_num, by norm_num, by norm_num⟩)
  refine ⟨st, h1, ?_, h4⟩
  intro i hi
  obtain ⟨nCell, rCell, iCell, hc, hn, -, herr, -, -⟩ := h3 i hi
  refine ⟨nCell, rCell, iCell, hc, hn, ?_⟩
  rw [herr]
  by_cases h : i = 1 <;> simp [h]

end AelRacing
